import Mathlib

/-!
Shallow embedding of the `watchdir` recursive directory watcher
(`src/lib.rs` and `src/path_tree.rs`), used to check the natural-language
specification against the code.

Modelling conventions:
* Filesystem paths are lists of segments (`List String`); `Path::join` is
  list append, `Path::strip_prefix` drops a leading segment list,
  `Path::file_name` is `getLast?`, `Path::parent` is `dropLast` on a
  nonempty list (and `none` on an empty one, as in Rust).
* `Option` wraps results of functions whose Rust counterpart can panic
  (`unwrap`, `HashMap` indexing); `none` models the panic.
* Rust `HashMap`s have no canonical iteration order; children of a tree
  node are modelled as a list, whose order stands for one arbitrary but
  fixed iteration order.
* The kernel/inotify side (fd, watch-descriptor allocation, the decoded
  record stream) is modelled by an explicit list of raw records plus a
  fresh-descriptor counter.
-/

namespace Watchdir

/-- File type distinguished by the watcher (`FileType` in `lib.rs`; the
decoder's `inotify::FileType` has the same two constructors and
`FileType::from` is the identity on them, so one Lean type serves both). -/
inductive FileType where
  | Dir
  | File
deriving DecidableEq, Repr

/-- Dot-directory policy (`Dotdir` in `lib.rs`). -/
inductive Dotdir where
  | Include
  | Exclude
deriving DecidableEq, Repr

/-- A filesystem path, as its list of segments. -/
abbrev Path := List String

/-- `Path::strip_prefix`: drop the leading segments `pre` from `p`, or fail
when `pre` is not a leading segment list of `p`. -/
def stripPre (pre p : Path) : Option Path :=
  if pre.isPrefixOf p then some (p.drop pre.length) else none

namespace PathTree

/-- Errors of the path registry (`Error` in `path_tree.rs`).  The Rust
`PrefixMismatched`, `PathNotFound` and `InvalidPath` variants carry the
offending path; `ValueNotFound` and `EmptyTree` carry nothing. -/
inductive PTError where
  | PrefixMismatched (path : Path)
  | ValueNotFound
  | EmptyTree
  | PathNotFound (path : Path)
  | InvalidPath (path : Path)
deriving DecidableEq, Repr

/-- A node of the path registry (`Node<T>` in `path_tree.rs`): a key (one
path segment for every node except the registry root, whose key is the
whole root path), a value (the watch descriptor) and a children map,
modelled as a list.  The Rust weak parent pointer is not represented:
upward path reconstruction is modelled by root-down search
(`Node.findValue` below), which agrees with it on consistent registries. -/
inductive Node (T : Type) where
  | mk (key : Path) (value : T) (children : List (Node T))
deriving Repr

namespace Node

variable {T : Type}

/-- The node's key. -/
def key : Node T → Path
  | .mk k _ _ => k

/-- The node's value. -/
def value : Node T → T
  | .mk _ v _ => v

/-- The node's children. -/
def children : Node T → List (Node T)
  | .mk _ _ cs => cs

@[simp] theorem key_mk (k : Path) (v : T) (cs : List (Node T)) :
    (Node.mk k v cs).key = k := rfl

@[simp] theorem value_mk (k : Path) (v : T) (cs : List (Node T)) :
    (Node.mk k v cs).value = v := rfl

@[simp] theorem children_mk (k : Path) (v : T) (cs : List (Node T)) :
    (Node.mk k v cs).children = cs := rfl

/-- `children.get(segment)` of the Rust `HashMap`: the child whose key is
the singleton `[seg]`. -/
def findChild (cs : List (Node T)) (seg : String) : Option (Node T) :=
  cs.find? (fun c => c.key == [seg])

/-- `HashMap::insert` on the children map: replace the child with the same
key, or add the new child. -/
def insertChild (cs : List (Node T)) (c : Node T) : List (Node T) :=
  match cs with
  | [] => [c]
  | d :: rest => if d.key == c.key then c :: rest else d :: insertChild rest c

/-- `HashMap::remove` on the children map: drop the child keyed `[seg]`. -/
def removeChild (cs : List (Node T)) (seg : String) : List (Node T) :=
  match cs with
  | [] => []
  | d :: rest => if d.key == [seg] then rest else d :: removeChild rest seg

/-- `Node::get`: descend from `n` along the path components `p`. -/
def get (n : Node T) (p : Path) : Option (Node T) :=
  match p with
  | [] => some n
  | s :: rest =>
    match findChild n.children s with
    | some c => get c rest
    | none => none

/-- Rebuild the tree with the node at path `p` replaced by `f` of it
(`f` must preserve the node's key for the result to stay well keyed). -/
def modifyAt (n : Node T) (p : Path) (f : Node T → Node T) : Option (Node T) :=
  match p with
  | [] => some (f n)
  | s :: rest =>
    match findChild n.children s with
    | some c =>
      (modifyAt c rest f).map fun c' =>
        Node.mk n.key n.value (insertChild n.children c')
    | none => none

/-- `Node::insert`: create a leaf with `value` keyed by the last segment of
`p` under the node at `p.parent()`.  Mirrors the Rust error cases:
an empty path has no parent or file name (`InvalidPath`), a missing parent
is `PathNotFound`. -/
def insertAt (root : Node T) (p : Path) (v : T) : Except PTError (Node T) :=
  match p.getLast? with
  | none => .error (.InvalidPath p)
  | some leafKey =>
    match modifyAt root p.dropLast
        (fun par => Node.mk par.key par.value
          (insertChild par.children (Node.mk [leafKey] v []))) with
    | some root' => .ok root'
    | none => .error (.PathNotFound p)

/-- `Node::pop`: detach the node at `p` from its parent; return the detached
node and the remaining tree. -/
def popAt (root : Node T) (p : Path) : Except PTError (Node T × Node T) :=
  match p.getLast? with
  | none => .error (.InvalidPath p)
  | some name =>
    match get root p.dropLast with
    | none => .error (.PathNotFound p)
    | some par =>
      match findChild par.children name with
      | none => .error (.PathNotFound p)
      | some removed =>
        match modifyAt root p.dropLast
            (fun q => Node.mk q.key q.value (removeChild q.children name)) with
        | some root' => .ok (removed, root')
        | none => .error (.PathNotFound p)

/-- `Node::rename`: pop the node at `oldP`, rekey it with the last segment
of `newP`, and insert it under the node at `newP.parent()` (a `HashMap`
insert, so an existing child with that key is silently replaced).  Returns
the possibly modified tree together with an optional error: as in Rust, when
the parent of `newP` is missing the node has already been popped, so the
error case can carry a mutated tree. -/
def renameAt (root : Node T) (oldP newP : Path) : Node T × Option PTError :=
  match popAt root oldP with
  | .error e => (root, some e)
  | .ok (removed, r1) =>
    match newP.getLast? with
    | none => (r1, some (.InvalidPath newP))
    | some newName =>
      match get r1 newP.dropLast with
      | none => (r1, some (.PathNotFound newP))
      | some _ =>
        let removed' := Node.mk [newName] removed.value removed.children
        match modifyAt r1 newP.dropLast
            (fun par => Node.mk par.key par.value
              (insertChild par.children removed')) with
        | some root' => (root', none)
        | none => (r1, some (.PathNotFound newP))

mutual

/-- Standard pre-order traversal of the values (specification helper). -/
def preorder : Node T → List T
  | .mk _ v cs => v :: preorderList cs

/-- Pre-order traversal of a list of subtrees. -/
def preorderList : List (Node T) → List T
  | [] => []
  | c :: cs => preorder c ++ preorderList cs

end

mutual

/-- The same tree with every children list reversed (specification helper:
`Node::values` visits siblings in the reverse of the iteration order). -/
def revAll : Node T → Node T
  | .mk k v cs => .mk k v (revAllList cs)

/-- `revAll` mapped over a list of subtrees, reversing the list. -/
def revAllList : List (Node T) → List (Node T)
  | [] => []
  | c :: cs => revAllList cs ++ [revAll c]

end

@[simp] theorem preorderList_nil : preorderList ([] : List (Node T)) = [] := rfl

@[simp] theorem preorderList_cons (c : Node T) (cs : List (Node T)) :
    preorderList (c :: cs) = preorder c ++ preorderList cs := rfl

@[simp] theorem preorder_mk (k : Path) (v : T) (cs : List (Node T)) :
    preorder (Node.mk k v cs) = v :: preorderList cs := rfl

@[simp] theorem preorderList_append (a b : List (Node T)) :
    preorderList (a ++ b) = preorderList a ++ preorderList b := by
  induction a with
  | nil => simp
  | cons c cs ih => simp [ih]

theorem length_preorderList_reverse (l : List (Node T)) :
    (preorderList l.reverse).length = (preorderList l).length := by
  induction l with
  | nil => rfl
  | cons c cs ih => simp [ih]; omega

theorem length_preorder_pos (n : Node T) : 0 < (preorder n).length := by
  cases n; simp

/-- The loop of `Node::values`: an explicit stack, popping from the top and
pushing the popped node's children.  The Rust code pushes to and pops from
the end of a `Vec`; the model keeps the top of the stack at the head. -/
def stackValues : List (Node T) → List T
  | [] => []
  | n :: rest => n.value :: stackValues (n.children.reverse ++ rest)
termination_by l => (preorderList l).length
decreasing_by
  cases d with
  | mk k v cs =>
    simp [length_preorderList_reverse]

/-- `Node::values`: the node's value followed by the values of all
descendants, collected with an explicit stack. -/
def values (n : Node T) : List T :=
  n.value :: stackValues n.children.reverse

mutual

/-- Root-down resolution of `Node::path` for the node holding value `v`:
the concatenation of the keys from the root down to the first pre-order
occurrence of `v`.  On a consistent registry (each value at exactly one
node) this is exactly the path the Rust code reconstructs by walking the
parent uplinks of the node the side table points at. -/
def findValue [DecidableEq T] : Node T → T → Option Path
  | .mk k v cs, w =>
    if v = w then some k else (findValueList cs w).map (fun q => k ++ q)

/-- First result of `findValue` over a list of subtrees. -/
def findValueList [DecidableEq T] : List (Node T) → T → Option Path
  | [], _ => none
  | c :: cs, w =>
    match findValue c w with
    | some q => some q
    | none => findValueList cs w

end

mutual

/-- Well-keyed registry tree: every child's key is a single segment, equal
to its key in the parent's children map, and sibling keys are distinct.
This is maintained by construction in the Rust code (children are keyed by
`file_name` segments) and is assumed by the consistency-dependent
theorems. -/
def wf : Node T → Bool
  | .mk _ _ cs =>
    (cs.map fun c => c.key).Nodup && wfList cs

/-- `wf` for each subtree in a list, each with a singleton key. -/
def wfList : List (Node T) → Bool
  | [] => true
  | c :: cs => c.key.length == 1 && wf c && wfList cs

end

end Node

/-- The path registry head (`Head<T>` in `path_tree.rs`): the root path
(field `prefix` in Rust), the `wd → node` side table — modelled by its key
set, node pointers being resolved through the tree — and the optional tree. -/
structure Head (T : Type) where
  pref : Path
  table : List T
  tree : Option (Node T)
deriving Repr

namespace Head

variable {T : Type} [DecidableEq T]

/-- `Head::new`. -/
def new (pref : Path) : Head T :=
  { pref := pref, table := [], tree := none }

/-- `Head::has`: membership in the side table. -/
def has (h : Head T) (v : T) : Bool :=
  h.table.contains v

/-- `HashMap::insert` on the side table key set. -/
def tableInsert (t : List T) (v : T) : List T :=
  if t.contains v then t else v :: t

/-- `Head::insert`: strip the root path from `p`; insert a leaf into the
tree (or create the root node, keyed by the whole path `p`, when the tree
is empty); record the value in the side table. -/
def insert (h : Head T) (p : Path) (v : T) : Except PTError (Head T) :=
  match stripPre h.pref p with
  | none => .error (.PrefixMismatched p)
  | some rest =>
    match h.tree with
    | some root =>
      match root.insertAt rest v with
      | .ok root' =>
        .ok { h with tree := some root', table := tableInsert h.table v }
      | .error e => .error e
    | none =>
      .ok { h with tree := some (Node.mk p v []), table := tableInsert h.table v }

/-- `Head::delete`: look the value up in the side table (`ValueNotFound` if
absent), reconstruct its node's path, strip the root path; when the rest is
empty take the whole tree, otherwise pop the subtree; collect the subtree's
values and drop them from the side table.  The two `EmptyTree` fallbacks
below are unreachable on consistent registries (the side table held the
value, so the tree resolves it); they stand for the Rust code's reliance on
the table's node pointer. -/
def delete (h : Head T) (v : T) : Except PTError (Head T × List T) :=
  if ¬ h.table.contains v then .error .ValueNotFound
  else
    match h.tree with
    | none => .error .EmptyTree
    | some root =>
      match root.findValue v with
      | none => .error .EmptyTree
      | some fullPath =>
        match stripPre h.pref fullPath with
        | none => .error (.PrefixMismatched fullPath)
        | some rest =>
          if rest.isEmpty then
            let vals := root.values
            Except.ok ({ h with
                tree := none
                table := h.table.filter (fun x => ¬ vals.contains x) }, vals)
          else
            match root.popAt rest with
            | .error e => .error e
            | .ok (removed, root') =>
              let vals := removed.values
              Except.ok ({ h with
                  tree := some root'
                  table := h.table.filter (fun x => ¬ vals.contains x) }, vals)

/-- `Head::rename`: look the value up (`ValueNotFound` if absent),
reconstruct and strip its old path, strip the new path, and perform the
tree surgery.  Mutation happens through node interior mutability in Rust,
so the result carries the (possibly partially) modified registry together
with an optional error; the side table is left untouched. -/
def rename (h : Head T) (v : T) (newPath : Path) : Head T × Option PTError :=
  if ¬ h.table.contains v then (h, some .ValueNotFound)
  else
    match h.tree with
    | none => (h, some .EmptyTree)
    | some root =>
      match root.findValue v with
      | none => (h, some .EmptyTree)
      | some oldPath =>
        match stripPre h.pref oldPath with
        | none => (h, some (.PrefixMismatched oldPath))
        | some oldRest =>
          match stripPre h.pref newPath with
          | none => (h, some (.PrefixMismatched newPath))
          | some newRest =>
            let (root', err) := root.renameAt oldRest newRest
            ({ h with tree := some root' }, err)

/-- `Head::path`: index the side table with `v` and reconstruct the node's
path.  The Rust code indexes the `HashMap` directly, so an unknown value
panics — modelled by `none`.  The reconstruction here resolves root-down
through the tree, which agrees with the Rust walk (through the table's
strong `Arc` and the node's parent uplinks) exactly on consistent
registries; the uplink semantics itself, needed when a node detached from
the tree stays table-referenced, is modelled separately by `RHead.path`
below. -/
def path (h : Head T) (v : T) : Option Path :=
  if h.table.contains v then
    match h.tree with
    | some root => root.findValue v
    | none => none
  else none

end Head

end PathTree

open PathTree

/-- Kind of a decoded raw kernel record.  Modelled from the spec (§3
`RawEvent`, §4.1) and from the exhaustive pattern matches in
`Watcher::recognize` in `lib.rs`: the `inotify` module defining
`EventKind`/`EventSeq` is not part of the current sources (the `inotify.rs`
in the tree is an earlier revision of the program), but every constructor
and payload is pinned down by its use in `lib.rs`.  `name`-less
`ACCESS/ATTRIB/OPEN/CLOSE` records carry `none`. -/
inductive EventKind where
  | Create (path : Path) (ft : FileType)
  | MoveFrom (path : Path) (ft : FileType)
  | MoveTo (path : Path) (ft : FileType)
  | Delete (path : Path) (ft : FileType)
  | MoveSelf
  | DeleteSelf
  | Modify (path : Path)
  | Access (path : Option Path) (ft : FileType)
  | Attrib (path : Option Path) (ft : FileType)
  | Open (path : Option Path) (ft : FileType)
  | Close (path : Option Path) (ft : FileType)
  | Unmount
  | Ignored
  | Unknown
deriving DecidableEq, Repr

/-- A decoded raw kernel record (`inotify::Event`): watch descriptor,
rename-pairing cookie and kind.  The wall-clock timestamp attached by the
decoder is irrelevant to every claim and is omitted. -/
structure RawEvent where
  wd : Int
  cookie : Nat
  kind : EventKind
deriving DecidableEq, Repr

/-- High-level event (`Event` in `lib.rs`). -/
inductive Event where
  | Create (path : Path) (ft : FileType)
  | Move (fromPath : Path) (toPath : Path) (ft : FileType)
  | MoveAway (path : Path) (ft : FileType)
  | MoveInto (path : Path) (ft : FileType)
  | MoveTop (path : Path)
  | Delete (path : Path) (ft : FileType)
  | DeleteTop (path : Path)
  | Modify (path : Path) (ft : FileType)
  | Access (path : Path) (ft : FileType)
  | AccessTop (path : Path)
  | Attrib (path : Path) (ft : FileType)
  | AttribTop (path : Path)
  | Open (path : Path) (ft : FileType)
  | OpenTop (path : Path)
  | Close (path : Path) (ft : FileType)
  | CloseTop (path : Path)
  | Unmount (path : Path) (ft : FileType)
  | UnmountTop (path : Path)
  | Noise
  | Ignored
  | Unknown
deriving DecidableEq, Repr

/-- Extra event classes a user may enable (`ExtraEvent` in `lib.rs`). -/
inductive ExtraEvent where
  | Modify
  | Access
  | Attrib
  | Open
  | Close
deriving DecidableEq, Repr

/-- Watcher options (`WatcherOpts`): the dot-directory policy and the
inotify mask. -/
structure WatcherOpts where
  subDotdir : Dotdir
  eventTypes : Nat
deriving DecidableEq, Repr

/-- `WatcherOpts::new`: the mask always contains
`CREATE | MOVE | MOVE_SELF | DELETE | DELETE_SELF | ONLYDIR`; extra event
classes OR in their bits. -/
def WatcherOpts.new (subDotdir : Dotdir) (extra : List ExtraEvent) : WatcherOpts :=
  let base := 0x100 ||| 0xC0 ||| 0x800 ||| 0x200 ||| 0x400 ||| 0x1000000
  let eventTypes := extra.foldl (fun v e =>
    match e with
    | .Modify => v ||| 0x2
    | .Access => v ||| 0x1
    | .Attrib => v ||| 0x4
    | .Open => v ||| 0x20
    | .Close => v ||| 0x18) base
  { subDotdir := subDotdir, eventTypes := eventTypes }

/-- Does the first byte of `s` equal `'.'` (the Rust code tests
`as_bytes()[0] == b'.'`, and `'.'` is a one-byte character)? -/
def headIsDot (s : String) : Bool :=
  s.data.head? == some '.'

/-- The dot-directory filter `guard` in `lib.rs`: reject anything that is
not a directory; a directory whose final segment begins with `.` passes
only under `Dotdir::Include`.  The Rust code unwraps `file_name()`; its
call sites never pass a path without a final segment, so the `none` arm
below is never exercised (its value is arbitrary). -/
def guard (opts : WatcherOpts) (path : Path) (ft : FileType) : Bool :=
  if ft ≠ FileType.Dir then false
  else
    match path.getLast? with
    | some seg =>
      if headIsDot seg then
        match opts.subDotdir with
        | .Include => true
        | .Exclude => false
      else true
    | none => true

/-- One directory entry of the filesystem snapshot: name, type and (for
directories) entries beneath it. -/
inductive FsEntry where
  | mk (name : String) (ft : FileType) (children : List FsEntry)
deriving Repr

/-- The entry's name. -/
def FsEntry.name : FsEntry → String
  | .mk nm _ _ => nm

/-- The entry's file type. -/
def FsEntry.ft : FsEntry → FileType
  | .mk _ t _ => t

/-- The entry's children. -/
def FsEntry.children : FsEntry → List FsEntry
  | .mk _ _ cs => cs

@[simp] theorem FsEntry.name_mk (nm : String) (t : FileType) (cs : List FsEntry) :
    (FsEntry.mk nm t cs).name = nm := rfl

@[simp] theorem FsEntry.ft_mk (nm : String) (t : FileType) (cs : List FsEntry) :
    (FsEntry.mk nm t cs).ft = t := rfl

@[simp] theorem FsEntry.entries_mk (nm : String) (t : FileType) (cs : List FsEntry) :
    (FsEntry.mk nm t cs).children = cs := rfl

/-- Snapshot of the filesystem the watcher consults: `symlink_metadata`
(file type at a path, `none` when the call fails) and the directory
listing used by `WalkDir`. -/
structure Fs where
  meta : Path → Option FileType
  entries : Path → List FsEntry

mutual

/-- The `WalkDir::new(path).min_depth(1).filter_entry(guard)` walk: the
admitted entries below `base`, in pre-order; an entry rejected by `guard`
is pruned together with everything beneath it (files never pass `guard`,
so only admitted directories are yielded). -/
def walkAdmitted (opts : WatcherOpts) (base : Path) : List FsEntry → List Path
  | [] => []
  | e :: rest => walkEntry opts base e ++ walkAdmitted opts base rest

/-- One entry of the pruned walk: the entry itself (when admitted) followed
by the walk of its children; nothing when the entry is rejected. -/
def walkEntry (opts : WatcherOpts) (base : Path) : FsEntry → List Path
  | .mk nm t cs =>
    let p := base ++ [nm]
    if guard opts p t then p :: walkAdmitted opts p cs else []

end

/-- The watcher state (`Watcher` in `lib.rs`): options, root watch
descriptor and root path, the path registry, and the one-slot record cache.
`nextWd` models the kernel's allocation of fresh watch descriptors (the
`fd` and the kernel's dedup of watches on an already-watched path are not
represented; the claims only exercise watches on fresh paths). -/
structure Watcher where
  opts : WatcherOpts
  topWd : Int
  topDir : Path
  pathTree : Head Int
  cache : Option RawEvent
  nextWd : Int
deriving Repr

namespace Watcher

/-- `Watcher::add_watch`: obtain a descriptor from the kernel (modelled as
the fresh counter), reject a descriptor already present
(`Error::WatchSame`), and insert the path into the registry.  The Rust code
unwraps the registry insert, so a failing insert panics (`none`).  The
result's second component is `none` exactly in the `WatchSame` error case
(the concrete error payload is irrelevant to the claims). -/
def add_watch (st : Watcher) (p : Path) : Option (Watcher × Option Int) :=
  let wd := st.nextWd
  let st1 := { st with nextWd := wd + 1 }
  if st1.pathTree.has wd then some (st1, none)
  else
    match st1.pathTree.insert p wd with
    | .ok t => some ({ st1 with pathTree := t }, some wd)
    | .error _ => none

/-- `Watcher::add_watch_all`: install a watch on `path` itself
unconditionally (a failure is only logged), and return the pruned
`WalkDir` walk of the admitted directories beneath it; the caller installs
each walked entry. -/
def add_watch_all (st : Watcher) (fs : Fs) (p : Path) :
    Option (Watcher × Option Int × List Path) :=
  (st.add_watch p).map fun (st1, r) =>
    (st1, r, walkAdmitted st.opts p (fs.entries p))

/-- The per-entry `add_watch` loop every caller of `add_watch_all` runs
over the walk (errors are only logged). -/
def add_watch_list : Watcher → List Path → Option Watcher
  | st, [] => some st
  | st, p :: ps =>
    match st.add_watch p with
    | none => none
    | some (st1, _) => add_watch_list st1 ps

/-- `Watcher::path`. -/
def path (st : Watcher) (wd : Int) : Option Path :=
  st.pathTree.path wd

/-- `Watcher::full_path`: `path(wd)` joined with a record's name. -/
def full_path (st : Watcher) (wd : Int) (p : Path) : Option Path :=
  (st.path wd).map (fun q => q ++ p)

/-- `Watcher::update_path`: registry rename, unwrapped (an error panics). -/
def update_path (st : Watcher) (wd : Int) (p : Path) : Option Watcher :=
  match st.pathTree.rename wd p with
  | (t, none) => some { st with pathTree := t }
  | (_, some _) => none

/-- `Watcher::rm_watch_all`: registry delete, unwrapped (an error panics);
the per-descriptor kernel unregistrations have no observable effect in the
model. -/
def rm_watch_all (st : Watcher) (wd : Int) : Option Watcher :=
  match st.pathTree.delete wd with
  | .ok (t, _) => some { st with pathTree := t }
  | .error _ => none

/-- `Watcher::recognize`: turn one raw record into a high-level event, with
up to two records of lookahead for the move and delete patterns.  `pending`
is the list of records the decoder has ready (`next_inotify_event` returns
`none` exactly when it is empty); a peeked record that does not close a
pattern is stored in the one-slot cache.  Returns the event, the optional
watch descriptor of a `_SELF` companion, the updated state and the
remaining ready records; `none` models a panic inside `full_path`
(an unknown descriptor indexes the side table).  Every branch mirrors the
corresponding arm of the Rust `match`, including which record's file type
each `MoveAway`/`Move` carries. -/
def recognize (st : Watcher) (ev : RawEvent) (pending : List RawEvent) :
    Option ((Event × Option Int) × Watcher × List RawEvent) :=
  match ev.kind with
  | .Create p ft =>
    (st.full_path ev.wd p).map fun fp => ((.Create fp ft, none), st, pending)
  | .MoveFrom fromP ft =>
    (st.full_path ev.wd fromP).bind fun ffp =>
      match pending with
      | [] => some ((.MoveAway ffp ft, none), st, [])
      | ne :: rest =>
        match ne.kind with
        | .MoveSelf =>
          if ne.wd ≠ st.topWd then
            some ((.MoveAway ffp .Dir, some ne.wd), st, rest)
          else
            some ((.MoveAway ffp ft, none), { st with cache := some ne }, rest)
        | .MoveTo toP ft2 =>
          if ev.cookie ≠ ne.cookie then
            some ((.MoveAway ffp ft2, none), { st with cache := some ne }, rest)
          else
            (st.full_path ne.wd toP).bind fun ftp =>
              match rest with
              | [] => some ((.Move ffp ftp ft2, none), st, [])
              | n2 :: rest2 =>
                match n2.kind with
                | .MoveSelf =>
                  some ((.Move ffp ftp .Dir, some n2.wd), st, rest2)
                | _ =>
                  some ((.Move ffp ftp ft2, none),
                    { st with cache := some n2 }, rest2)
        | _ =>
          some ((.MoveAway ffp ft, none), { st with cache := some ne }, rest)
  | .MoveTo p ft =>
    (st.full_path ev.wd p).map fun fp => ((.MoveInto fp ft, none), st, pending)
  | .Delete p ft =>
    (st.full_path ev.wd p).bind fun fp =>
      match pending with
      | [] => some ((.Delete fp ft, none), st, [])
      | ne :: rest =>
        match ne.kind with
        | .DeleteSelf =>
          if ne.wd = st.topWd then
            some ((.Delete fp ft, none), { st with cache := some ne }, rest)
          else
            some ((.Delete fp .Dir, some ne.wd), st, rest)
        | _ =>
          some ((.Delete fp ft, none), { st with cache := some ne }, rest)
  | .MoveSelf => some ((.MoveTop st.topDir, none), st, pending)
  | .DeleteSelf => some ((.DeleteTop st.topDir, none), st, pending)
  | .Modify p =>
    (st.full_path ev.wd p).map fun fp => ((.Modify fp .File, none), st, pending)
  | .Access op ft =>
    match op with
    | some p =>
      (st.full_path ev.wd p).map fun fp => ((.Access fp ft, none), st, pending)
    | none =>
      if ev.wd = st.topWd then some ((.AccessTop st.topDir, none), st, pending)
      else some ((.Noise, none), st, pending)
  | .Attrib op ft =>
    match op with
    | some p =>
      (st.full_path ev.wd p).map fun fp => ((.Attrib fp ft, none), st, pending)
    | none =>
      if ev.wd = st.topWd then some ((.AttribTop st.topDir, none), st, pending)
      else some ((.Noise, none), st, pending)
  | .Open op ft =>
    match op with
    | some p =>
      (st.full_path ev.wd p).map fun fp => ((.Open fp ft, none), st, pending)
    | none =>
      if ev.wd = st.topWd then some ((.OpenTop st.topDir, none), st, pending)
      else some ((.Noise, none), st, pending)
  | .Close op ft =>
    match op with
    | some p =>
      (st.full_path ev.wd p).map fun fp => ((.Close fp ft, none), st, pending)
    | none =>
      if ev.wd = st.topWd then some ((.CloseTop st.topDir, none), st, pending)
      else some ((.Noise, none), st, pending)
  | .Unmount =>
    if ev.wd = st.topWd then some ((.UnmountTop st.topDir, none), st, pending)
    else
      (st.path ev.wd).map fun fp => ((.Unmount fp .Dir, none), st, pending)
  | .Ignored => some ((.Ignored, none), st, pending)
  | .Unknown => some ((.Unknown, none), st, pending)

/-- A record that `recognize` maps to `Noise`: a name-less
`ACCESS/ATTRIB/OPEN/CLOSE` record on a non-top watch (established by
`recognize_noise_iff`).  The stream loop in `Watcher::stream` skips such
records without yielding. -/
def isNoiseRec (st : Watcher) (e : RawEvent) : Bool :=
  e.wd ≠ st.topWd &&
    match e.kind with
    | .Access none _ => true
    | .Attrib none _ => true
    | .Open none _ => true
    | .Close none _ => true
    | _ => false

end Watcher

/-- Outcome of one iteration of the loop in `Watcher::stream`:
`blocked` when no record is ready (the generator would suspend on the
decoder), `panicked` when the Rust code would panic on an `unwrap`, and
`yields evs st pending` for an iteration that yields the events `evs`. -/
inductive StepOut where
  | blocked
  | panicked
  | yields (evs : List Event) (st : Watcher) (pending : List RawEvent)
deriving Repr

namespace Watcher

/-- The body of one iteration of `Watcher::stream` after a non-`Noise`
event was recognized: perform the branch's registry/watch maintenance and
yield the event (plus, for an admitted `Create(Dir)`, one `Create(.., Dir)`
per walked descendant, in walk order, before any later record is read). -/
def dispatch (fs : Fs) (st : Watcher) (e : RawEvent) (pending : List RawEvent) :
    StepOut :=
  match st.recognize e pending with
  | none => .panicked
  | some ((ev, wdOpt), st1, pending1) =>
    match ev with
    | .Move fromP toP .Dir =>
      if guard st1.opts fromP .Dir then
        if guard st1.opts toP .Dir then
          match wdOpt with
          | none => .panicked
          | some w =>
            match st1.update_path w toP with
            | none => .panicked
            | some st2 => .yields [ev] st2 pending1
        else
          match wdOpt with
          | none => .panicked
          | some w =>
            match st1.rm_watch_all w with
            | none => .panicked
            | some st2 => .yields [ev] st2 pending1
      else
        if guard st1.opts toP .Dir then
          match st1.add_watch_all fs toP with
          | none => .panicked
          | some (st2, _, walk) =>
            match st2.add_watch_list walk with
            | none => .panicked
            | some st3 => .yields [ev] st3 pending1
        else .yields [ev] st1 pending1
    | .MoveAway _ .Dir =>
      match wdOpt with
      | none => .yields [ev] st1 pending1
      | some w =>
        match st1.rm_watch_all w with
        | none => .panicked
        | some st2 => .yields [ev] st2 pending1
    | .Delete _ .Dir =>
      match wdOpt with
      | none => .yields [ev] st1 pending1
      | some w =>
        match st1.rm_watch_all w with
        | none => .panicked
        | some st2 => .yields [ev] st2 pending1
    | .MoveInto p .Dir =>
      match fs.meta p with
      | some mft =>
        if guard st1.opts p mft then
          match st1.add_watch_all fs p with
          | none => .panicked
          | some (st2, _, walk) =>
            match st2.add_watch_list walk with
            | none => .panicked
            | some st3 => .yields [ev] st3 pending1
        else .yields [ev] st1 pending1
      | none => .yields [ev] st1 pending1
    | .Create p .Dir =>
      match fs.meta p with
      | some mft =>
        if guard st1.opts p mft then
          match st1.add_watch_all fs p with
          | none => .panicked
          | some (st2, _, walk) =>
            match st2.add_watch_list walk with
            | none => .panicked
            | some st3 =>
              .yields (ev :: walk.map (fun q => Event.Create q .Dir)) st3 pending1
        else .yields [ev] st1 pending1
      | none => .yields [ev] st1 pending1
    | .DeleteTop _ =>
      match st1.rm_watch_all st1.topWd with
      | none => .panicked
      | some st2 => .yields [ev] st2 pending1
    | .UnmountTop _ =>
      match st1.rm_watch_all st1.topWd with
      | none => .panicked
      | some st2 => .yields [ev] st2 pending1
    | .Unmount _ _ =>
      match st1.rm_watch_all e.wd with
      | none => .panicked
      | some st2 => .yields [ev] st2 pending1
    | _ => .yields [ev] st1 pending1

/-- The inner loop of `Watcher::stream` once the cache is empty: pop ready
records, skipping `Noise` ones (recognizing a `Noise` record touches
neither the state nor the cache), until a non-`Noise` record is dispatched
or no record is ready. -/
def streamPend (fs : Fs) (st : Watcher) : List RawEvent → StepOut
  | [] => .blocked
  | e :: rest =>
    if isNoiseRec st e then streamPend fs st rest
    else dispatch fs st e rest

/-- One iteration of the loop in `Watcher::stream`: take the cached record
if present (clearing the cache), otherwise the next ready record (blocking
— here: `blocked` — when none is ready); skip `Noise` records; then
recognize and dispatch. -/
def streamStep (fs : Fs) (st : Watcher) (pending : List RawEvent) : StepOut :=
  match st.cache with
  | some e =>
    let st1 := { st with cache := none }
    if isNoiseRec st1 e then streamPend fs st1 pending
    else dispatch fs st1 e pending
  | none => streamPend fs st pending

/-- Run the stream for at most `fuel` iterations and collect the yielded
events, stopping at a block or panic (specification helper for sequence
claims). -/
def streamRun (fs : Fs) : Nat → Watcher → List RawEvent → List Event
  | 0, _, _ => []
  | Nat.succ k, st, pending =>
    match streamStep fs st pending with
    | .yields evs st' p' => evs ++ streamRun fs k st' p'
    | _ => []

end Watcher

/-! Sample data used by witnesses and counterexamples. -/

/-- A filesystem snapshot in which every metadata query fails and every
directory is empty. -/
def fs0 : Fs :=
  { meta := fun _ => none, entries := fun _ => [] }

/-- Sample registry: root `r` (wd 1) with children `a` (wd 2, containing
`d` with wd 4) and `b` (wd 3). -/
def head0 : Head Int :=
  { pref := ["r"], table := [1, 2, 3, 4],
    tree := some (Node.mk ["r"] 1
      [Node.mk ["a"] 2 [Node.mk ["d"] 4 []], Node.mk ["b"] 3 []]) }

/-- Sample watcher over `head0`, watching `r` with `top_wd = 1`,
dot-directories excluded. -/
def st0 : Watcher :=
  { opts := WatcherOpts.new .Exclude [], topWd := 1, topDir := ["r"],
    pathTree := head0, cache := none, nextWd := 10 }

/-! Helper lemmas about `recognize` and `dispatch`. -/

/-- A record recognized as `Noise` is exactly a name-less
`ACCESS/ATTRIB/OPEN/CLOSE` record on a non-top watch. -/
theorem isNoiseRec_of_recognize_noise (st : Watcher) (e : RawEvent)
    (pending : List RawEvent) (w : Option Int) (st1 : Watcher)
    (p1 : List RawEvent)
    (h : st.recognize e pending = some ((Event.Noise, w), st1, p1)) :
    st.isNoiseRec e = true := by
  unfold Watcher.recognize at h
  unfold Watcher.isNoiseRec
  cases hk : e.kind <;> simp [hk] at h ⊢
  case MoveFrom p ft =>
    cases hp : st.full_path e.wd p <;> simp [hp] at h
    cases pending with
    | nil => simp at h
    | cons ne rest =>
      simp at h
      cases hk2 : ne.kind <;> simp [hk2] at h
      case MoveTo toP ft2 =>
        by_cases hc : e.cookie = ne.cookie <;> simp [hc] at h
        cases hp2 : st.full_path ne.wd toP <;> simp [hp2] at h
        cases rest with
        | nil => simp at h
        | cons n2 rest2 =>
          simp at h
          cases hk3 : n2.kind <;> simp [hk3] at h
      case MoveSelf =>
        by_cases hw : ne.wd = st.topWd <;> simp [hw] at h
  case Delete p ft =>
    cases hp : st.full_path e.wd p <;> simp [hp] at h
    cases pending with
    | nil => simp at h
    | cons ne rest =>
      simp at h
      cases hk2 : ne.kind <;> simp [hk2] at h
      case DeleteSelf =>
        by_cases hw : ne.wd = st.topWd <;> simp [hw] at h
  case Access op ft =>
    cases op with
    | some p => cases hp : st.full_path e.wd p <;> simp [hp] at h
    | none =>
      by_cases hw : e.wd = st.topWd <;> simp [hw] at h ⊢
  case Attrib op ft =>
    cases op with
    | some p => cases hp : st.full_path e.wd p <;> simp [hp] at h
    | none =>
      by_cases hw : e.wd = st.topWd <;> simp [hw] at h ⊢
  case Open op ft =>
    cases op with
    | some p => cases hp : st.full_path e.wd p <;> simp [hp] at h
    | none =>
      by_cases hw : e.wd = st.topWd <;> simp [hw] at h ⊢
  case Close op ft =>
    cases op with
    | some p => cases hp : st.full_path e.wd p <;> simp [hp] at h
    | none =>
      by_cases hw : e.wd = st.topWd <;> simp [hw] at h ⊢
  case Unmount =>
    by_cases hw : e.wd = st.topWd <;> simp [hw] at h

/-- Every yielding `dispatch` yields the recognized event first, followed
only by the `Create(.., Dir)` amplification, and leaves exactly the records
`recognize` left pending. -/
theorem dispatch_shape (fs : Fs) (st : Watcher) (e : RawEvent)
    (pending : List RawEvent) (evs : List Event) (st2 : Watcher)
    (p2 : List RawEvent)
    (h : Watcher.dispatch fs st e pending = .yields evs st2 p2) :
    ∃ ev w st1, st.recognize e pending = some ((ev, w), st1, p2) ∧
      ∃ extra, evs = ev :: extra ∧
        ∀ x ∈ extra, ∃ q, x = Event.Create q .Dir := by
  unfold Watcher.dispatch at h
  cases hrec : st.recognize e pending with
  | none => simp [hrec] at h
  | some out =>
    obtain ⟨⟨ev, w⟩, st1, p1⟩ := out
    simp only [hrec] at h
    have key : p2 = p1 ∧ ∃ extra, evs = ev :: extra ∧
        ∀ x ∈ extra, ∃ q, x = Event.Create q .Dir := by
      cases ev <;> (repeat' (split at h)) <;>
        simp_all <;>
        (obtain ⟨hevs, hst, hp⟩ := h) <;>
        (refine ⟨_, hevs.symm, ?_⟩) <;>
        (intro x hx) <;>
        first
          | (rcases List.mem_map.1 hx with ⟨q, hq, rfl⟩; exact ⟨q, rfl⟩)
          | simp at hx
    obtain ⟨hp, extra, hevs, hextra⟩ := key
    subst hp
    exact ⟨ev, w, st1, rfl, extra, hevs, hextra⟩

/-- `dispatch` never reports a block: it either panics or yields. -/
theorem dispatch_ne_blocked (fs : Fs) (st : Watcher) (e : RawEvent)
    (pending : List RawEvent) :
    Watcher.dispatch fs st e pending ≠ .blocked := by
  unfold Watcher.dispatch
  cases hrec : st.recognize e pending with
  | none => simp
  | some out =>
    obtain ⟨⟨ev, w⟩, st1, p1⟩ := out
    cases ev <;> (repeat' split) <;> simp

/-- A yielding `dispatch` on a non-`Noise` record never yields `Noise`. -/
theorem dispatch_no_noise (fs : Fs) (st : Watcher) (e : RawEvent)
    (pending : List RawEvent) (evs : List Event) (st' : Watcher)
    (p' : List RawEvent) (hnoise : ¬ st.isNoiseRec e = true)
    (h : Watcher.dispatch fs st e pending = .yields evs st' p') :
    Event.Noise ∉ evs := by
  obtain ⟨ev, w, st1, hrec, extra, hevs, hextra⟩ := dispatch_shape _ _ _ _ _ _ _ h
  subst hevs
  intro hmem
  rcases List.mem_cons.1 hmem with hmem | hmem
  · exact hnoise (isNoiseRec_of_recognize_noise _ _ _ _ _ _ (hmem ▸ hrec))
  · obtain ⟨q, hq⟩ := hextra _ hmem
    simp at hq

/-- The inner stream loop never yields `Noise`. -/
theorem streamPend_no_noise (fs : Fs) (st : Watcher) (pending : List RawEvent)
    (evs : List Event) (st' : Watcher) (p' : List RawEvent)
    (h : Watcher.streamPend fs st pending = .yields evs st' p') :
    Event.Noise ∉ evs := by
  induction pending with
  | nil => simp [Watcher.streamPend] at h
  | cons e rest ih =>
    unfold Watcher.streamPend at h
    by_cases hn : st.isNoiseRec e
    · rw [if_pos hn] at h
      exact ih h
    · rw [if_neg hn] at h
      exact dispatch_no_noise fs st e rest evs st' p' hn h

/-- The stream never yields `Noise`: the loop in `Watcher::stream` skips
`Noise` records, and a dispatched event is never `Noise`. -/
theorem streamStep_no_noise (fs : Fs) (st : Watcher) (pending : List RawEvent)
    (evs : List Event) (st' : Watcher) (p' : List RawEvent)
    (h : Watcher.streamStep fs st pending = .yields evs st' p') :
    Event.Noise ∉ evs := by
  unfold Watcher.streamStep at h
  cases hc : st.cache with
  | some e =>
    rw [hc] at h
    by_cases hn : Watcher.isNoiseRec { st with cache := none } e
    · simp only [hn, if_true] at h
      exact streamPend_no_noise _ _ _ _ _ _ h
    · simp only [hn, if_false] at h
      exact dispatch_no_noise _ _ _ _ _ _ _ hn h
  | none =>
    rw [hc] at h
    exact streamPend_no_noise _ _ _ _ _ _ h

/-! Sample raw records for witnesses and counterexamples. -/

/-- Name-less `ACCESS` record on the top watch of `st0`. -/
def rAccTop : RawEvent := { wd := 1, cookie := 0, kind := .Access none .Dir }

/-- Name-less `ACCESS` record on a non-top watch of `st0`. -/
def rAccSub : RawEvent := { wd := 2, cookie := 0, kind := .Access none .Dir }

/-- `MOVE_SELF` record on a non-top watch of `st0`. -/
def rMoveSelf4 : RawEvent := { wd := 4, cookie := 0, kind := .MoveSelf }

/-! The claims. -/

/-- C8: a name-less `ACCESS/ATTRIB/OPEN/CLOSE` record on the top watch is
recognized as the corresponding `AccessTop/AttribTop/OpenTop/CloseTop`
event carrying `top_dir`; on any other watch it is recognized as `Noise`;
the stream never yields `Noise` to the consumer; and a recognized
non-`Noise` event (including `Ignored` and `Unknown`) is always the first
event of the iteration that yields (the iteration never skips it, though it
may panic on an `unwrap` first). -/
theorem C8_nameless_records_noise_policy :
    (∀ (st : Watcher) (e : RawEvent) (pending : List RawEvent) (ft : FileType),
      (e.kind = EventKind.Access none ft → e.wd = st.topWd →
        st.recognize e pending = some ((Event.AccessTop st.topDir, none), st, pending)) ∧
      (e.kind = EventKind.Access none ft → e.wd ≠ st.topWd →
        st.recognize e pending = some ((Event.Noise, none), st, pending)) ∧
      (e.kind = EventKind.Attrib none ft → e.wd = st.topWd →
        st.recognize e pending = some ((Event.AttribTop st.topDir, none), st, pending)) ∧
      (e.kind = EventKind.Attrib none ft → e.wd ≠ st.topWd →
        st.recognize e pending = some ((Event.Noise, none), st, pending)) ∧
      (e.kind = EventKind.Open none ft → e.wd = st.topWd →
        st.recognize e pending = some ((Event.OpenTop st.topDir, none), st, pending)) ∧
      (e.kind = EventKind.Open none ft → e.wd ≠ st.topWd →
        st.recognize e pending = some ((Event.Noise, none), st, pending)) ∧
      (e.kind = EventKind.Close none ft → e.wd = st.topWd →
        st.recognize e pending = some ((Event.CloseTop st.topDir, none), st, pending)) ∧
      (e.kind = EventKind.Close none ft → e.wd ≠ st.topWd →
        st.recognize e pending = some ((Event.Noise, none), st, pending))) ∧
    (∀ (fs : Fs) (st : Watcher) (pending : List RawEvent) (evs : List Event)
        (st' : Watcher) (p' : List RawEvent),
      Watcher.streamStep fs st pending = .yields evs st' p' →
        Event.Noise ∉ evs) ∧
    (∀ (fs : Fs) (st : Watcher) (e : RawEvent) (pending : List RawEvent)
        (ev : Event) (w : Option Int) (st1 : Watcher) (p1 : List RawEvent)
        (evs : List Event) (st2 : Watcher) (p2 : List RawEvent),
      st.recognize e pending = some ((ev, w), st1, p1) →
      Watcher.dispatch fs st e pending = .yields evs st2 p2 →
        p2 = p1 ∧ ∃ extra, evs = ev :: extra) := by
  refine ⟨?_, ?_, ?_⟩
  · intro st e pending ft
    refine ⟨?_, ?_, ?_, ?_, ?_, ?_, ?_, ?_⟩ <;> intro hk hw <;>
      simp [Watcher.recognize, hk, hw]
  · intro fs st pending evs st' p' h
    exact streamStep_no_noise fs st pending evs st' p' h
  · intro fs st e pending ev w st1 p1 evs st2 p2 hrec hd
    obtain ⟨ev', w', st1', hrec', extra, hevs, _⟩ :=
      dispatch_shape _ _ _ _ _ _ _ hd
    rw [hrec] at hrec'
    obtain ⟨⟨he, _⟩, _, hp⟩ : (ev = ev' ∧ w = w') ∧ st1 = st1' ∧ p1 = p2 := by
      have := Option.some.inj hrec'
      exact ⟨Prod.mk.inj (Prod.mk.inj this).1, Prod.mk.inj (Prod.mk.inj this).2⟩
    exact ⟨hp.symm, extra, he ▸ hevs⟩

/-- C8 witness: concrete instances — a name-less `ACCESS` on the top watch
of `st0` becomes `AccessTop`, and on watch 2 becomes `Noise`. -/
theorem C8_witness :
    st0.recognize rAccTop [] = some ((Event.AccessTop ["r"], none), st0, []) ∧
    st0.recognize rAccSub [] = some ((Event.Noise, none), st0, []) := by
  constructor
  · exact (C8_nameless_records_noise_policy.1 st0 rAccTop [] .Dir).1 rfl rfl
  · exact (C8_nameless_records_noise_policy.1 st0 rAccSub [] .Dir).2.1 rfl
      (by decide)

/-- C10: a `MOVE_SELF` record reaching single-record recognition is
recognized as `MoveTop(top_dir)` and a standalone `DELETE_SELF` as
`DeleteTop(top_dir)`, with no check of the record's watch descriptor
against `top_wd` — so such a record on a non-top watch is also reported as
a top-directory event carrying `top_dir`. -/
theorem C10_self_records_report_top (st : Watcher) (e : RawEvent)
    (pending : List RawEvent) :
    (e.kind = EventKind.MoveSelf →
      st.recognize e pending = some ((Event.MoveTop st.topDir, none), st, pending)) ∧
    (e.kind = EventKind.DeleteSelf →
      st.recognize e pending = some ((Event.DeleteTop st.topDir, none), st, pending)) := by
  constructor <;> intro hk <;> simp [Watcher.recognize, hk]

/-- C10 witness: a delayed `MOVE_SELF` on watch 4 (not the top watch) of
`st0` is reported as `MoveTop` of the top directory. -/
theorem C10_witness :
    st0.recognize rMoveSelf4 [] = some ((Event.MoveTop ["r"], none), st0, []) ∧
    rMoveSelf4.wd ≠ st0.topWd :=
  ⟨(C10_self_records_report_top st0 rMoveSelf4 []).1 rfl, by decide⟩

/-- `MOVED_FROM` of directory `d` in `r/a` (wd 2) with cookie 7. -/
def rMoveFromD : RawEvent := { wd := 2, cookie := 7, kind := .MoveFrom ["d"] .Dir }

/-- A `DELETE` record, used as a non-closing follow-up of a move pattern. -/
def rDeleteY : RawEvent := { wd := 1, cookie := 0, kind := .Delete ["y"] .File }

/-- Does this record kind close a pending `MOVED_FROM` pattern
(`MOVED_TO` or `MOVE_SELF`)? -/
def closesMovePattern (k : EventKind) : Bool :=
  match k with
  | .MoveTo _ _ => true
  | .MoveSelf => true
  | _ => false

/-- C4 counterexample: the claim says the `MoveAway` always carries file
type `File`, but the code propagates the file type of the raw record.  For
`MOVED_FROM(wd=2, name=d, IS_DIR=1)` followed by a `DELETE` record (which
does not close the pattern), the recognizer emits
`MoveAway(r/a/d, Dir)` — not `File` — while caching the peeked record. -/
theorem C4_counterexample :
    st0.recognize rMoveFromD [rDeleteY] =
      some ((Event.MoveAway ["r", "a", "d"] FileType.Dir, none),
        { st0 with cache := some rDeleteY }, []) ∧
    Event.MoveAway ["r", "a", "d"] FileType.Dir ≠
      Event.MoveAway ["r", "a", "d"] FileType.File := by
  exact ⟨rfl, by decide⟩

/-- C4 (amended): for a `MOVED_FROM(wd=A, name=X, cookie=C)` whose peeked
follow-up does not close the move pattern, the recognizer emits
`MoveAway(path(A)/X, ft)` where `ft` is the file type carried by the
`MOVED_FROM` record itself (or, when the follow-up is a `MOVED_TO` with a
different cookie, the file type carried by that `MOVED_TO` record), and the
non-matching peeked record is returned to the one-slot cache with the
remaining records untouched. -/
theorem C4_moveaway_filetype (st : Watcher) (mf ne : RawEvent)
    (rest : List RawEvent) (X : Path) (ft : FileType) (pathA : Path)
    (hk : mf.kind = .MoveFrom X ft)
    (hp : st.pathTree.path mf.wd = some pathA) :
    (∀ Y ft2, ne.kind = .MoveTo Y ft2 → mf.cookie ≠ ne.cookie →
      st.recognize mf (ne :: rest) =
        some ((Event.MoveAway (pathA ++ X) ft2, none),
          { st with cache := some ne }, rest)) ∧
    (closesMovePattern ne.kind = false →
      st.recognize mf (ne :: rest) =
        some ((Event.MoveAway (pathA ++ X) ft, none),
          { st with cache := some ne }, rest)) := by
  constructor
  · intro Y ft2 hk2 hck
    simp [Watcher.recognize, hk, hk2, Watcher.full_path, Watcher.path, hp, hck]
  · intro hcl
    cases hk2 : ne.kind <;> simp [closesMovePattern, hk2] at hcl <;>
      simp [Watcher.recognize, hk, hk2, Watcher.full_path, Watcher.path, hp]

/-- C4 witness: the amended statement applied to the state `st0`, the
`MOVED_FROM` record `rMoveFromD` and the non-closing follow-up `rDeleteY`. -/
theorem C4_witness :
    st0.recognize rMoveFromD [rDeleteY] =
      some ((Event.MoveAway (["r", "a"] ++ ["d"]) FileType.Dir, none),
        { st0 with cache := some rDeleteY }, []) :=
  (C4_moveaway_filetype st0 rMoveFromD rDeleteY [] ["d"] .Dir ["r", "a"]
    rfl rfl).2 (by decide)

/-- C1: a `MOVED_FROM(wd=A, name=X, cookie=C)` / `MOVED_TO(wd=B, name=Y,
cookie=C)` / `MOVE_SELF(wd=W')` triple, when the dot-directory policy
admits both the old path `path(A)/X` and the new path `path(B)/Y`, makes
the stream yield exactly one `Move(path(A)/X, path(B)/Y, Dir)` event and
rename the registry node of `W'` to `path(B)/Y`, leaving later records
untouched. -/
theorem C1_move_triple (fs : Fs) (st : Watcher) (mf mt2 ms : RawEvent)
    (rest : List RawEvent) (X Y : Path) (ftA ftB : FileType)
    (pathA pathB : Path)
    (hcache : st.cache = none)
    (hmf : mf.kind = .MoveFrom X ftA)
    (hmt : mt2.kind = .MoveTo Y ftB)
    (hms : ms.kind = .MoveSelf)
    (hck : mf.cookie = mt2.cookie)
    (hpA : st.pathTree.path mf.wd = some pathA)
    (hpB : st.pathTree.path mt2.wd = some pathB)
    (hgf : guard st.opts (pathA ++ X) .Dir = true)
    (hgt : guard st.opts (pathB ++ Y) .Dir = true)
    (hrn : (st.pathTree.rename ms.wd (pathB ++ Y)).snd = none) :
    Watcher.streamStep fs st (mf :: mt2 :: ms :: rest) =
      .yields [Event.Move (pathA ++ X) (pathB ++ Y) FileType.Dir]
        { st with pathTree := (st.pathTree.rename ms.wd (pathB ++ Y)).fst }
        rest := by
  have hnoise : Watcher.isNoiseRec st mf = false := by
    simp [Watcher.isNoiseRec, hmf]
  have hrec : st.recognize mf (mt2 :: ms :: rest) =
      some ((Event.Move (pathA ++ X) (pathB ++ Y) FileType.Dir, some ms.wd),
        st, rest) := by
    simp [Watcher.recognize, hmf, hmt, hms, Watcher.full_path, Watcher.path,
      hpA, hpB, hck]
  have hupd : st.update_path ms.wd (pathB ++ Y) =
      some { st with pathTree := (st.pathTree.rename ms.wd (pathB ++ Y)).fst } := by
    unfold Watcher.update_path
    have hpair : st.pathTree.rename ms.wd (pathB ++ Y) =
        ((st.pathTree.rename ms.wd (pathB ++ Y)).fst, none) := by
      have h2 : ((st.pathTree.rename ms.wd (pathB ++ Y)).fst,
          (st.pathTree.rename ms.wd (pathB ++ Y)).snd) =
          st.pathTree.rename ms.wd (pathB ++ Y) := Prod.mk.eta
      rw [hrn] at h2
      exact h2.symm
    rw [hpair]
  simp [Watcher.streamStep, hcache, Watcher.streamPend, hnoise,
    Watcher.dispatch, hrec, hgf, hgt, hupd]

/-- `MOVED_TO` of directory `d2` into `r/b` (wd 3) with cookie 7. -/
def rMoveToD2 : RawEvent := { wd := 3, cookie := 7, kind := .MoveTo ["d2"] .Dir }

/-- C1 witness: the triple `MOVED_FROM(2, d, 7)`, `MOVED_TO(3, d2, 7)`,
`MOVE_SELF(4)` on `st0` yields one `Move(r/a/d, r/b/d2, Dir)` and renames
watch 4 to `r/b/d2`. -/
theorem C1_witness :
    Watcher.streamStep fs0 st0 [rMoveFromD, rMoveToD2, rMoveSelf4] =
      .yields [Event.Move (["r", "a"] ++ ["d"]) (["r", "b"] ++ ["d2"])
          FileType.Dir]
        { st0 with
          pathTree := (st0.pathTree.rename rMoveSelf4.wd (["r", "b"] ++ ["d2"])).fst }
        [] :=
  C1_move_triple fs0 st0 rMoveFromD rMoveToD2 rMoveSelf4 [] ["d"] ["d2"]
    .Dir .Dir ["r", "a"] ["r", "b"] rfl rfl rfl rfl rfl rfl rfl rfl rfl rfl

/-- C3: recognizing an admitted `Create(path, Dir)` makes the stream yield
`Create(path, Dir)` immediately followed by one `Create(p, Dir)` per
admitted descendant directory in the pruned walk, in walk (pre-order)
order, with every later record still pending untouched. -/
theorem C3_create_dir_amplification (fs : Fs) (st : Watcher) (cr : RawEvent)
    (rest : List RawEvent) (nm : Path) (pW : Path) (stA stB : Watcher)
    (r : Option Int)
    (hcache : st.cache = none)
    (hk : cr.kind = .Create nm .Dir)
    (hp : st.pathTree.path cr.wd = some pW)
    (hmeta : fs.meta (pW ++ nm) = some .Dir)
    (hguard : guard st.opts (pW ++ nm) .Dir = true)
    (hadd : st.add_watch (pW ++ nm) = some (stA, r))
    (hlist : stA.add_watch_list
      (walkAdmitted st.opts (pW ++ nm) (fs.entries (pW ++ nm))) = some stB) :
    Watcher.streamStep fs st (cr :: rest) =
      .yields (Event.Create (pW ++ nm) .Dir ::
          (walkAdmitted st.opts (pW ++ nm) (fs.entries (pW ++ nm))).map
            (fun q => Event.Create q .Dir))
        stB rest := by
  have hnoise : Watcher.isNoiseRec st cr = false := by
    simp [Watcher.isNoiseRec, hk]
  have hrec : st.recognize cr rest =
      some ((Event.Create (pW ++ nm) FileType.Dir, none), st, rest) := by
    simp [Watcher.recognize, hk, Watcher.full_path, Watcher.path, hp]
  simp [Watcher.streamStep, hcache, Watcher.streamPend, hnoise,
    Watcher.dispatch, hrec, hmeta, hguard, Watcher.add_watch_all, hadd, hlist]

/-- Filesystem snapshot for the C3 witness: `r/new` is a directory holding
directories `s1` (itself holding dot-directory `.h` and directory `s2`)
and a regular file `f`. -/
def fsC3 : Fs :=
  { meta := fun p => if p = ["r", "new"] then some .Dir else none,
    entries := fun p =>
      if p = ["r", "new"] then
        [FsEntry.mk "s1" .Dir [FsEntry.mk ".h" .Dir [], FsEntry.mk "s2" .Dir []],
         FsEntry.mk "f" .File []]
      else [] }

/-- `CREATE` record for directory `new` in the root of `st0`. -/
def rCreateNew : RawEvent := { wd := 1, cookie := 0, kind := .Create ["new"] .Dir }

/-- The registry of `st0` after installing `r/new` as watch 10. -/
def headC3A : Head Int :=
  { pref := ["r"], table := [10, 1, 2, 3, 4],
    tree := some (Node.mk ["r"] 1
      [Node.mk ["a"] 2 [Node.mk ["d"] 4 []], Node.mk ["b"] 3 [],
       Node.mk ["new"] 10 []]) }

/-- The registry of `st0` after additionally installing `r/new/s1` (wd 11)
and `r/new/s1/s2` (wd 12); the dot-directory `.h` and the file `f` are not
installed. -/
def headC3B : Head Int :=
  { pref := ["r"], table := [12, 11, 10, 1, 2, 3, 4],
    tree := some (Node.mk ["r"] 1
      [Node.mk ["a"] 2 [Node.mk ["d"] 4 []], Node.mk ["b"] 3 [],
       Node.mk ["new"] 10 [Node.mk ["s1"] 11 [Node.mk ["s2"] 12 []]]]) }

/-- C3 witness: creating `r/new` on `st0` over `fsC3` yields
`Create(r/new, Dir)` followed by `Create` of exactly the two admitted
descendants in pre-order (`.h` is pruned, `f` is not a directory), with no
later record consumed. -/
theorem C3_witness :
    Watcher.streamStep fsC3 st0 [rCreateNew] =
      .yields (Event.Create (["r"] ++ ["new"]) .Dir ::
          (walkAdmitted st0.opts (["r"] ++ ["new"])
              (fsC3.entries (["r"] ++ ["new"]))).map
            (fun q => Event.Create q .Dir))
        { st0 with nextWd := 13, pathTree := headC3B } [] ∧
    walkAdmitted st0.opts (["r"] ++ ["new"]) (fsC3.entries (["r"] ++ ["new"])) =
      [["r", "new", "s1"], ["r", "new", "s1", "s2"]] :=
  ⟨C3_create_dir_amplification fsC3 st0 rCreateNew [] ["new"] ["r"]
      { st0 with nextWd := 11, pathTree := headC3A }
      { st0 with nextWd := 13, pathTree := headC3B }
      (some 10) rfl rfl rfl rfl rfl rfl rfl,
    rfl⟩

/-- `DELETE_SELF` record on the top watch of `st0`. -/
def rDelSelfTop : RawEvent := { wd := 1, cookie := 0, kind := .DeleteSelf }

/-- `IGNORED` record (the kernel's acknowledgement after a watch is
removed). -/
def rIgnored : RawEvent := { wd := 1, cookie := 0, kind := .Ignored }

/-- C9 counterexample: the claim says nothing follows a `DeleteTop`, but
the stream loop does not terminate: deleting the watched root of `st0` and
then receiving the kernel's `IGNORED` acknowledgement yields `DeleteTop`
followed by a further `Ignored` event in the same sequence. -/
theorem C9_counterexample :
    Watcher.streamRun fs0 2 st0 [rDelSelfTop, rIgnored] =
      [Event.DeleteTop ["r"], Event.Ignored] := by
  simp [Watcher.streamRun, Watcher.streamStep, Watcher.streamPend,
    Watcher.isNoiseRec, Watcher.dispatch, Watcher.recognize,
    Watcher.rm_watch_all, Head.delete, st0, head0, fs0, rDelSelfTop, rIgnored,
    Node.values, Node.stackValues, stripPre, Node.findValue,
    Node.findValueList, Watcher.full_path, Watcher.path, Head.path]

/-- C9 (amended): a standalone `DELETE_SELF` yields `DeleteTop(top_dir)`
and removes the whole registry, but the sequence does not end there: the
stream keeps processing ready records, so for example a pending `IGNORED`
record is still recognized and yielded as `Ignored` right after the
`DeleteTop`.  Termination on `DeleteTop` is the consumer's job (the
`watchdir` binary exits on it). -/
theorem C9_deletetop_not_terminal (fs : Fs) (st : Watcher) (ds : RawEvent)
    (pending : List RawEvent) (stD : Watcher)
    (hcache : st.cache = none)
    (hk : ds.kind = .DeleteSelf)
    (hrm : st.rm_watch_all st.topWd = some stD) :
    Watcher.streamStep fs st (ds :: pending) =
      .yields [Event.DeleteTop st.topDir] stD pending ∧
    ∀ (ig : RawEvent) (rest2 : List RawEvent), ig.kind = .Ignored →
      Watcher.streamStep fs stD (ig :: rest2) =
        .yields [Event.Ignored] stD rest2 := by
  have hcD : stD.cache = st.cache := by
    unfold Watcher.rm_watch_all at hrm
    cases hdel : st.pathTree.delete st.topWd with
    | ok out => rw [hdel] at hrm; cases hrm; rfl
    | error e => rw [hdel] at hrm; cases hrm
  constructor
  · have hnoise : Watcher.isNoiseRec st ds = false := by
      simp [Watcher.isNoiseRec, hk]
    have hrec : st.recognize ds pending =
        some ((Event.DeleteTop st.topDir, none), st, pending) := by
      simp [Watcher.recognize, hk]
    unfold Watcher.streamStep
    rw [hcache]
    unfold Watcher.streamPend
    rw [hnoise]
    simp only [Bool.false_eq_true, if_false]
    unfold Watcher.dispatch
    rw [hrec]
    simp [hrm]
  · intro ig rest2 hki
    have hnoise : Watcher.isNoiseRec stD ig = false := by
      simp [Watcher.isNoiseRec, hki]
    have hrec : stD.recognize ig rest2 =
        some ((Event.Ignored, none), stD, rest2) := by
      simp [Watcher.recognize, hki]
    unfold Watcher.streamStep
    rw [hcD, hcache]
    unfold Watcher.streamPend
    rw [hnoise]
    simp only [Bool.false_eq_true, if_false]
    unfold Watcher.dispatch
    rw [hrec]

/-- C9 witness: the amended statement at the concrete run of
`C9_counterexample`. -/
theorem C9_witness :
    Watcher.streamStep fs0 st0 [rDelSelfTop, rIgnored] =
      .yields [Event.DeleteTop ["r"]]
        { st0 with pathTree := { pref := ["r"], table := [], tree := none } }
        [rIgnored] :=
  (C9_deletetop_not_terminal fs0 st0 rDelSelfTop [rIgnored]
    { st0 with pathTree := { pref := ["r"], table := [], tree := none } }
    rfl rfl (by
      simp [Watcher.rm_watch_all, Head.delete, st0, head0, Node.values,
        Node.stackValues, stripPre, Node.findValue, Node.findValueList])).1

/-- C6 counterexample: the claim says `path(wd)` for an unknown `wd` fails
recoverably, but `Head::path` indexes the side-table `HashMap` directly and
panics on a missing key (modelled by `none`; the registry's error channel
`Except PTError` is not involved at all): on the empty registry,
`path 5` aborts. -/
theorem C6_counterexample :
    (Head.new ["r"] : Head Int).path 5 = none := rfl

/-- C6 (amended): for a watch id absent from the registry, `delete` fails
with the recoverable `ValueNotFound` (returning before any mutation, so the
registry is unchanged) and `rename` fails with `ValueNotFound` returning
the registry unchanged; `path` for an unknown id aborts (panics on the
side-table index) rather than failing recoverably; and `insert` of a path
not under the root prefix fails with `PrefixMismatched` carrying the
offending path. -/
theorem C6_unknown_wd_and_prefix_errors {T : Type} [DecidableEq T]
    (h : Head T) (v : T) (p q : Path)
    (hv : h.table.contains v = false)
    (hq : stripPre h.pref q = none) :
    h.delete v = .error .ValueNotFound ∧
    h.rename v p = (h, some .ValueNotFound) ∧
    h.path v = none ∧
    h.insert q v = .error (.PrefixMismatched q) := by
  have hv' : v ∉ h.table := by simpa using hv
  refine ⟨?_, ?_, ?_, ?_⟩ <;>
    simp [Head.delete, Head.rename, Head.path, Head.insert, hv', hq]

/-- C6 witness: the amended statement on the empty registry with root `r`,
unknown watch id 5, rename target `r/x` and the non-prefixed path `zz`. -/
theorem C6_witness :
    (Head.new ["r"] : Head Int).delete 5 = .error .ValueNotFound ∧
    (Head.new ["r"] : Head Int).rename 5 ["r", "x"] =
      (Head.new ["r"], some .ValueNotFound) ∧
    (Head.new ["r"] : Head Int).path 5 = none ∧
    (Head.new ["r"] : Head Int).insert ["zz"] 5 =
      .error (.PrefixMismatched ["zz"]) :=
  C6_unknown_wd_and_prefix_errors (Head.new ["r"]) 5 ["r", "x"] ["zz"] rfl rfl

/-- C7: the admit predicate `guard` rejects everything that is not a
directory; for a directory whose final segment begins with `.` it admits
exactly under `Dotdir::Include`; and `add_watch_all` (the spec's
`install_tree`) installs a watch on its root argument unconditionally —
no `guard` hypothesis appears in the third conjunct, so the root is
installed regardless of its name and of the dot-directory policy. -/
theorem C7_admit_policy :
    (∀ (opts : WatcherOpts) (p : Path) (ft : FileType),
      ft ≠ .Dir → guard opts p ft = false) ∧
    (∀ (opts : WatcherOpts) (p : Path) (s : String),
      p.getLast? = some s → headIsDot s = true →
      (guard opts p .Dir = true ↔ opts.subDotdir = .Include)) ∧
    (∀ (st : Watcher) (fs : Fs) (p : Path) (t : Head Int),
      st.pathTree.has st.nextWd = false →
      st.pathTree.insert p st.nextWd = .ok t →
      st.add_watch_all fs p =
        some ({ st with nextWd := st.nextWd + 1, pathTree := t },
          some st.nextWd, walkAdmitted st.opts p (fs.entries p))) := by
  refine ⟨?_, ?_, ?_⟩
  · intro opts p ft hft
    cases ft
    · exact absurd rfl hft
    · simp [guard]
  · intro opts p s hl hd
    cases hsd : opts.subDotdir <;> simp [guard, hl, hd, hsd]
  · intro st fs p t h1 h2
    have h1' : st.nextWd ∉ st.pathTree.table := by simpa [Head.has] using h1
    simp [Watcher.add_watch_all, Watcher.add_watch, Head.has, h1', h2]

/-- The registry of `st0` after installing the dot-named directory
`r/.new` as watch 10. -/
def headDotNew : Head Int :=
  { pref := ["r"], table := [10, 1, 2, 3, 4],
    tree := some (Node.mk ["r"] 1
      [Node.mk ["a"] 2 [Node.mk ["d"] 4 []], Node.mk ["b"] 3 [],
       Node.mk [".new"] 10 []]) }

/-- C7 witness: the dot-named directory `r/.new` is rejected by `guard`
under the excluded policy, yet `add_watch_all` still installs it as the
root of its walk. -/
theorem C7_witness :
    guard st0.opts ["r", ".new"] .Dir = false ∧
    st0.add_watch_all fs0 ["r", ".new"] =
      some ({ st0 with nextWd := 11, pathTree := headDotNew }, some 10,
        walkAdmitted st0.opts ["r", ".new"] (fs0.entries ["r", ".new"])) :=
  ⟨rfl, C7_admit_policy.2.2 st0 fs0 ["r", ".new"] headDotNew rfl rfl⟩

/-! Registry-tree lemmas supporting the `Head::delete` (C5) and
`Head::rename` (C2) theorems. -/

namespace PathTree

namespace Node

variable {T : Type}

/-- Strong induction over registry trees: to prove `P` of a node it
suffices to prove it from `P` of all children. -/
theorem inductionOn {P : Node T → Prop}
    (step : ∀ (k : Path) (v : T) (cs : List (Node T)),
      (∀ c ∈ cs, P c) → P (Node.mk k v cs)) :
    ∀ n, P n
  | .mk k v cs => step k v cs (fun c hc => inductionOn step c)
termination_by n => sizeOf n
decreasing_by
  have := List.sizeOf_lt_of_mem hc
  simp
  omega

@[simp] theorem get_nil (n : Node T) : get n [] = some n := rfl

theorem get_cons (n : Node T) (s : String) (rest : Path) :
    get n (s :: rest) =
      match findChild n.children s with
      | some c => get c rest
      | none => none := rfl

theorem get_append (n : Node T) (a b : Path) :
    get n (a ++ b) = (get n a).bind (fun m => get m b) := by
  induction a generalizing n with
  | nil => simp
  | cons s rest ih =>
    rw [List.cons_append, get_cons, get_cons]
    cases findChild n.children s with
    | some c => simp [ih]
    | none => simp

theorem get_singleton (n : Node T) (s : String) :
    get n [s] = findChild n.children s := by
  rw [get_cons]
  cases findChild n.children s <;> simp

theorem findChild_some {cs : List (Node T)} {s : String} {c : Node T}
    (h : findChild cs s = some c) : c ∈ cs ∧ c.key = [s] := by
  unfold findChild at h
  have hm := List.mem_of_find?_eq_some h
  have hp := List.find?_some h
  simp at hp
  exact ⟨hm, hp⟩

theorem mem_preorderList {cs : List (Node T)} {x : T} :
    x ∈ preorderList cs ↔ ∃ c ∈ cs, x ∈ preorder c := by
  induction cs with
  | nil => simp
  | cons c rest ih =>
    simp [ih]

theorem value_mem_preorder (n : Node T) : n.value ∈ preorder n := by
  cases n; simp

theorem get_sub_preorder {n m : Node T} {p : Path} (h : get n p = some m) :
    ∀ x ∈ preorder m, x ∈ preorder n := by
  induction p generalizing n with
  | nil => simp at h; subst h; exact fun x hx => hx
  | cons s rest ih =>
    rw [get_cons] at h
    cases hc : findChild n.children s with
    | none => rw [hc] at h; cases h
    | some c =>
      rw [hc] at h
      intro x hx
      have hcm := (findChild_some hc).1
      have := ih h x hx
      cases n with
      | mk k v cs =>
        simp
        right
        exact mem_preorderList.2 ⟨c, hcm, this⟩

theorem preorderList_eq_join (cs : List (Node T)) :
    preorderList cs = (cs.map preorder).join := by
  induction cs with
  | nil => simp
  | cons c rest ih => simp [ih]

theorem preorderList_revAllList (cs : List (Node T)) :
    preorderList (revAllList cs) =
      (cs.reverse.map fun c => preorder (revAll c)).join := by
  induction cs with
  | nil => simp [revAllList]
  | cons c rest ih =>
    rw [revAllList, preorderList_append, ih]
    simp

theorem stackValues_eq (l : List (Node T)) :
    stackValues l = (l.map fun n => preorder (revAll n)).join := by
  induction l using stackValues.induct with
  | case1 => simp [stackValues]
  | case2 n rest ih =>
    rw [stackValues, ih]
    cases n with
    | mk k v cs =>
      simp [revAll, preorderList_revAllList]

theorem values_eq (n : Node T) : values n = preorder (revAll n) := by
  cases n with
  | mk k v cs =>
    rw [values, stackValues_eq]
    simp [revAll, preorderList_revAllList]

theorem values_head (n : Node T) : n.values.head? = some n.value := by
  rw [values]
  rfl

theorem join_map_perm {α β : Type} (cs : List α) (f g : α → List β)
    (h : ∀ c ∈ cs, (f c).Perm (g c)) :
    ((cs.map f).join).Perm ((cs.map g).join) := by
  induction cs with
  | nil => simp
  | cons c rest ih =>
    simp only [List.map_cons, List.join_cons]
    exact (h c (by simp)).append (ih (fun d hd => h d (by simp [hd])))

theorem preorder_revAll_perm : ∀ n : Node T, (preorder (revAll n)).Perm (preorder n) := by
  refine inductionOn ?_
  intro k v cs ih
  rw [revAll]
  simp only [preorder_mk]
  rw [preorderList_revAllList, preorderList_eq_join]
  refine List.Perm.cons v ?_
  have h1 : ((cs.reverse.map fun c => preorder (revAll c)).join).Perm
      ((cs.map fun c => preorder (revAll c)).join) :=
    ((cs.reverse_perm).map _).join
  have h2 : ((cs.map fun c => preorder (revAll c)).join).Perm
      ((cs.map preorder).join) :=
    join_map_perm cs _ _ (fun c hc => ih c hc)
  exact h1.trans h2

theorem values_perm_preorder (n : Node T) : (values n).Perm (preorder n) := by
  rw [values_eq]
  exact preorder_revAll_perm n

theorem wf_parts {k : Path} {v : T} {cs : List (Node T)}
    (hwf : wf (Node.mk k v cs) = true) :
    ((cs.map key).Nodup) ∧ wfList cs = true := by
  rw [wf] at hwf
  simpa using hwf

theorem wfList_children {cs : List (Node T)} (h : wfList cs = true) :
    ∀ c ∈ cs, wf c = true ∧ c.key.length = 1 := by
  induction cs with
  | nil => simp
  | cons c rest ih =>
    rw [wfList] at h
    simp at h
    obtain ⟨⟨hk, hwfc⟩, hrest⟩ := h
    intro d hd
    rcases List.mem_cons.1 hd with rfl | hd
    · exact ⟨hwfc, hk⟩
    · exact ih hrest d hd

theorem wf_children {n : Node T} (hwf : wf n = true) :
    ∀ c ∈ n.children, wf c = true ∧ c.key.length = 1 := by
  cases n with
  | mk k v cs => exact wfList_children (wf_parts hwf).2

theorem wf_get {n m : Node T} {p : Path} (hwf : wf n = true)
    (h : get n p = some m) : wf m = true := by
  induction p generalizing n with
  | nil => simp at h; subst h; exact hwf
  | cons s rest ih =>
    rw [get_cons] at h
    cases hc : findChild n.children s with
    | none => rw [hc] at h; cases h
    | some c =>
      rw [hc] at h
      exact ih (wf_children hwf c (findChild_some hc).1).1 h

theorem key_singleton_of_length {c : Node T} (h : c.key.length = 1) :
    ∃ s, c.key = [s] := by
  cases hk : c.key with
  | nil => rw [hk] at h; simp at h
  | cons s rest =>
    rw [hk] at h
    simp at h
    exact ⟨s, by rw [h]⟩

variable [DecidableEq T]

theorem findValue_eq (k : Path) (v : T) (cs : List (Node T)) (w : T) :
    findValue (Node.mk k v cs) w =
      if v = w then some k else (findValueList cs w).map (fun q => k ++ q) := by
  rw [findValue]

theorem findValueList_some {cs : List (Node T)} {w : T} {r : Path}
    (h : findValueList cs w = some r) :
    ∃ c ∈ cs, findValue c w = some r := by
  induction cs with
  | nil => rw [findValueList] at h; cases h
  | cons c rest ih =>
    rw [findValueList] at h
    cases hc : findValue c w with
    | some q => rw [hc] at h; cases h; exact ⟨c, by simp, hc⟩
    | none =>
      rw [hc] at h
      obtain ⟨d, hd, hfd⟩ := ih h
      exact ⟨d, by simp [hd], hfd⟩

theorem findValue_shape {n : Node T} {w : T} {r : Path}
    (h : findValue n w = some r) : ∃ s, r = n.key ++ s := by
  cases n with
  | mk k v cs =>
    rw [findValue_eq] at h
    split at h
    · cases h; exact ⟨[], by simp⟩
    · rcases Option.map_eq_some'.1 h with ⟨q, _, rfl⟩
      exact ⟨q, rfl⟩

theorem findValue_mem : ∀ {n : Node T} {w : T} {r : Path},
    findValue n w = some r → w ∈ preorder n := by
  intro n
  induction n using inductionOn with
  | step k v cs ih =>
    intro w r h
    rw [findValue_eq] at h
    split at h
    · simp [*]
    · rcases Option.map_eq_some'.1 h with ⟨q, hq, rfl⟩
      obtain ⟨c, hc, hfc⟩ := findValueList_some hq
      simp
      exact Or.inr (mem_preorderList.2 ⟨c, hc, ih c hc hfc⟩)

theorem findValue_none_of_not_mem {n : Node T} {w : T}
    (h : w ∉ preorder n) : findValue n w = none := by
  cases hf : findValue n w with
  | none => rfl
  | some r => exact absurd (findValue_mem hf) h

theorem findChild_of_mem {cs : List (Node T)} {c : Node T} {s : String}
    (hnd : (cs.map key).Nodup) (hc : c ∈ cs) (hk : c.key = [s]) :
    findChild cs s = some c := by
  induction cs with
  | nil => cases hc
  | cons d rest ih =>
    simp at hnd
    rcases List.mem_cons.1 hc with rfl | hc'
    · have hp : (c.key == [s]) = true := by simp [hk]
      unfold findChild
      simp [List.find?_cons, hp]
    · have hd' : (d.key == [s]) = false := by
        simp only [beq_eq_false_iff_ne, ne_eq]
        intro hds
        exact hnd.1 c hc' (by rw [hk, hds])
      unfold findChild
      simp only [List.find?_cons, hd']
      exact ih hnd.2 hc'

theorem findValue_sound : ∀ {n : Node T}, wf n = true →
    ∀ {w : T} {q : Path}, findValue n w = some (n.key ++ q) →
    ∃ m, get n q = some m ∧ m.value = w := by
  intro n
  induction n using inductionOn with
  | step k v cs ih =>
    intro hwf w q h
    rw [findValue_eq] at h
    split at h
    · rename_i hv
      have h2 : k = k ++ q := by
        have := Option.some.inj h
        simpa using this
      have hq : q = [] := by
        have hl := congrArg List.length h2
        simp at hl
        first
          | exact hl
          | exact List.eq_nil_of_length_eq_zero hl.symm
          | exact List.eq_nil_of_length_eq_zero hl
      subst hq
      exact ⟨Node.mk k v cs, by simp, hv⟩
    · rcases Option.map_eq_some'.1 h with ⟨r, hr, hkr⟩
      simp only [key_mk] at hkr
      have hrq : r = q := List.append_cancel_left hkr
      subst hrq
      obtain ⟨c, hc, hfc⟩ := findValueList_some hr
      obtain ⟨hwfc, hlen⟩ := wf_children hwf c hc
      obtain ⟨s, hs⟩ := key_singleton_of_length hlen
      obtain ⟨sub, hsub⟩ := findValue_shape hfc
      rw [hsub, hs] at hfc
      obtain ⟨m, hm, hmv⟩ := ih c hc hwfc (by rw [hs]; exact hfc)
      refine ⟨m, ?_, hmv⟩
      rw [hsub, hs]
      simp only [List.singleton_append, get_cons, children_mk]
      rw [findChild_of_mem (wf_parts hwf).1 hc hs]
      exact hm

theorem nodup_preorderList_of_mem {cs : List (Node T)} {c : Node T}
    (hnd : (preorderList cs).Nodup) (hc : c ∈ cs) :
    (preorder c).Nodup := by
  rw [preorderList_eq_join] at hnd
  exact (List.nodup_join.1 hnd).1 _ (List.mem_map_of_mem preorder hc)

theorem findValueList_eq_of_unique {cs : List (Node T)} {c : Node T} {w : T}
    {r : Path} (hnd : (preorderList cs).Nodup) (hc : c ∈ cs)
    (hfc : findValue c w = some r) :
    findValueList cs w = some r := by
  induction cs with
  | nil => cases hc
  | cons d rest ih =>
    rcases List.mem_cons.1 hc with rfl | hc'
    · rw [findValueList, hfc]
    · have hw : w ∈ preorder c := findValue_mem hfc
      rw [preorderList_cons] at hnd
      have hnotd : w ∉ preorder d := by
        intro hwd
        exact List.disjoint_of_nodup_append hnd hwd
          (mem_preorderList.2 ⟨c, hc', hw⟩)
      rw [findValueList, findValue_none_of_not_mem hnotd]
      exact ih (List.Nodup.of_append_right hnd) hc'

theorem findValue_eq_of_get : ∀ {n : Node T}, wf n = true →
    (preorder n).Nodup →
    ∀ {q : Path} {m : Node T} {w : T}, get n q = some m → m.value = w →
    findValue n w = some (n.key ++ q) := by
  intro n
  induction n using inductionOn with
  | step k v cs ih =>
    intro hwf hnd q m w hget hval
    cases q with
    | nil =>
      simp at hget
      subst hget
      rw [findValue_eq]
      simp at hval
      simp [hval]
    | cons s rest =>
      rw [get_cons] at hget
      simp only [children_mk] at hget
      cases hfc : findChild cs s with
      | none => rw [hfc] at hget; cases hget
      | some c =>
        rw [hfc] at hget
        have hwc : w ∈ preorder c :=
          hval ▸ get_sub_preorder hget _ (value_mem_preorder m)
        have hcm := (findChild_some hfc).1
        have hkc := (findChild_some hfc).2
        rw [preorder_mk] at hnd
        have hnv : ¬ v = w := by
          intro hvw
          exact (List.nodup_cons.1 hnd).1
            (hvw ▸ mem_preorderList.2 ⟨c, hcm, hwc⟩)
        rw [findValue_eq, if_neg hnv]
        have hwfc := (wf_children hwf c hcm).1
        have hndc : (preorder c).Nodup :=
          nodup_preorderList_of_mem (List.nodup_cons.1 hnd).2 hcm
        have hfv : findValue c w = some (c.key ++ rest) :=
          ih c hcm hwfc hndc hget hval
        have hfl : findValueList cs w = some (c.key ++ rest) :=
          findValueList_eq_of_unique (List.nodup_cons.1 hnd).2 hcm hfv
        rw [hfl]
        simp [hkc]

/-! Child-map surgery lemmas: `insertChild` (both the fresh-key and the
replace-same-key cases) and `removeChild`. -/

theorem insertChild_fresh {cs : List (Node T)} {c : Node T}
    (h : ∀ d ∈ cs, d.key ≠ c.key) : insertChild cs c = cs ++ [c] := by
  induction cs with
  | nil => rfl
  | cons d rest ih =>
    rw [insertChild]
    have hd : ¬ (d.key == c.key) = true := by
      simp
      exact h d (by simp)
    simp only [hd, if_false]
    rw [ih (fun d hd => h d (by simp [hd]))]
    rfl

theorem findChild_append (a b : List (Node T)) (s : String) :
    findChild (a ++ b) s =
      match findChild a s with
      | some c => some c
      | none => findChild b s := by
  unfold findChild
  rw [List.find?_append]
  cases a.find? (fun c => c.key == [s]) <;> simp [Option.orElse]

theorem perm_rotate (a b r : List T) : ((a ++ r) ++ b).Perm ((b ++ r) ++ a) := by
  have h1 : ((a ++ r) ++ b).Perm (b ++ (a ++ r)) := List.perm_append_comm
  have h2 : (b ++ (a ++ r)).Perm (b ++ (r ++ a)) :=
    List.Perm.append_left b List.perm_append_comm
  have h3 : b ++ (r ++ a) = (b ++ r) ++ a := (List.append_assoc b r a).symm
  exact h1.trans (h2.trans (by rw [h3]))

theorem findChild_cons (d : Node T) (rest : List (Node T)) (s : String) :
    findChild (d :: rest) s =
      if (d.key == [s]) = true then some d else findChild rest s := by
  unfold findChild
  rw [List.find?_cons]
  by_cases h : (d.key == [s]) = true <;> simp [h]

theorem insertChild_cons (d : Node T) (rest : List (Node T)) (c : Node T) :
    insertChild (d :: rest) c =
      if (d.key == c.key) = true then c :: rest else d :: insertChild rest c := by
  rw [insertChild]

theorem removeChild_cons (d : Node T) (rest : List (Node T)) (s : String) :
    removeChild (d :: rest) s =
      if (d.key == [s]) = true then rest else d :: removeChild rest s := by
  rw [removeChild]

theorem findChild_insertChild_replace {cs : List (Node T)} {c c' : Node T}
    {s : String} (hfc : findChild cs s = some c) (hk : c'.key = c.key) :
    findChild (insertChild cs c') s = some c' ∧
    (∀ s2, s2 ≠ s → findChild (insertChild cs c') s2 = findChild cs s2) ∧
    (preorderList (insertChild cs c') ++ preorder c).Perm
      (preorderList cs ++ preorder c') ∧
    (insertChild cs c').map key = cs.map key := by
  induction cs with
  | nil => unfold findChild at hfc; cases hfc
  | cons d rest ih =>
    have hks : c.key = [s] := (findChild_some hfc).2
    rw [findChild_cons] at hfc
    by_cases hd : (d.key == [s]) = true
    · rw [if_pos hd] at hfc
      have hdc : d = c := Option.some.inj hfc
      subst hdc
      have hrep : insertChild (d :: rest) c' = c' :: rest := by
        rw [insertChild_cons, if_pos (by simp [hk])]
      rw [hrep]
      have hck' : (c'.key == [s]) = true := by simp [hk, hks]
      refine ⟨?_, ?_, ?_, ?_⟩
      · rw [findChild_cons, if_pos hck']
      · intro s2 hs2
        rw [findChild_cons, findChild_cons]
        have h1 : (c'.key == [s2]) = false := by
          simp [hk, hks]
          intro heq
          exact absurd heq.symm hs2
        have h2 : (d.key == [s2]) = false := by
          simp [hks]
          intro heq
          exact absurd heq.symm hs2
        rw [if_neg (by simp [h1]), if_neg (by simp [h2])]
      · simp only [preorderList_cons, List.append_assoc]
        have := perm_rotate (preorder c') (preorder d) (preorderList rest)
        simpa [List.append_assoc] using this
      · simp [hk]
    · rw [if_neg hd] at hfc
      have hne : (d.key == c'.key) = false := by
        rw [hk, hks]
        simpa using hd
      have hins : insertChild (d :: rest) c' = d :: insertChild rest c' := by
        rw [insertChild_cons, if_neg (by simp [hne])]
      obtain ⟨ih1, ih2, ih3, ih4⟩ := ih hfc
      rw [hins]
      refine ⟨?_, ?_, ?_, ?_⟩
      · rw [findChild_cons, if_neg hd]
        exact ih1
      · intro s2 hs2
        rw [findChild_cons, findChild_cons]
        by_cases hd2 : (d.key == [s2]) = true
        · rw [if_pos hd2, if_pos hd2]
        · rw [if_neg hd2, if_neg hd2]
          exact ih2 s2 hs2
      · simp only [preorderList_cons, List.append_assoc]
        exact List.Perm.append_left (preorder d) ih3
      · simp [ih4]

theorem removeChild_spec {cs : List (Node T)} {c : Node T} {s : String}
    (hfc : findChild cs s = some c) :
    (∀ s2, s2 ≠ s → findChild (removeChild cs s) s2 = findChild cs s2) ∧
    (preorderList cs).Perm (preorderList (removeChild cs s) ++ preorder c) ∧
    ((removeChild cs s).map key).Sublist (cs.map key) ∧
    (wfList cs = true → wfList (removeChild cs s) = true) := by
  induction cs with
  | nil => unfold findChild at hfc; cases hfc
  | cons d rest ih =>
    have hks : c.key = [s] := (findChild_some hfc).2
    rw [findChild_cons] at hfc
    by_cases hd : (d.key == [s]) = true
    · rw [if_pos hd] at hfc
      have hdc : d = c := Option.some.inj hfc
      subst hdc
      have hrem : removeChild (d :: rest) s = rest := by
        rw [removeChild_cons, if_pos hd]
      rw [hrem]
      refine ⟨?_, ?_, ?_, ?_⟩
      · intro s2 hs2
        rw [findChild_cons]
        have h2 : (d.key == [s2]) = false := by
          simp [hks]
          intro heq
          exact absurd heq.symm hs2
        rw [if_neg (by simp [h2])]
      · rw [preorderList_cons]
        exact List.perm_append_comm
      · simp only [List.map_cons]
        exact List.sublist_cons_self _ _
      · intro hwl
        rw [wfList] at hwl
        simp at hwl
        exact hwl.2
    · rw [if_neg hd] at hfc
      have hrem : removeChild (d :: rest) s = d :: removeChild rest s := by
        rw [removeChild_cons, if_neg hd]
      obtain ⟨ih1, ih2, ih3, ih4⟩ := ih hfc
      rw [hrem]
      refine ⟨?_, ?_, ?_, ?_⟩
      · intro s2 hs2
        rw [findChild_cons, findChild_cons]
        by_cases hd2 : (d.key == [s2]) = true
        · rw [if_pos hd2, if_pos hd2]
        · rw [if_neg hd2, if_neg hd2]
          exact ih1 s2 hs2
      · simp only [preorderList_cons, List.append_assoc]
        exact List.Perm.append_left (preorder d) ih2
      · simp only [List.map_cons]
        exact ih3.cons₂ d.key
      · intro hwl
        rw [wfList] at hwl ⊢
        simp at hwl ⊢
        exact ⟨hwl.1, ih4 hwl.2⟩

theorem wfList_insertChild_replace {cs : List (Node T)} {c c' : Node T}
    {s : String} (hfc : findChild cs s = some c) (hk : c'.key = c.key)
    (hwl : wfList cs = true) (hwc' : wf c' = true) :
    wfList (insertChild cs c') = true := by
  induction cs with
  | nil => unfold findChild at hfc; cases hfc
  | cons d rest ih =>
    have hks : c.key = [s] := (findChild_some hfc).2
    rw [findChild_cons] at hfc
    rw [wfList] at hwl
    simp at hwl
    by_cases hd : (d.key == [s]) = true
    · rw [if_pos hd] at hfc
      have hdc : d = c := Option.some.inj hfc
      subst hdc
      rw [insertChild_cons, if_pos (by simp [hk])]
      rw [wfList]
      simp
      exact ⟨⟨by rw [hk, hks]; rfl, hwc'⟩, hwl.2⟩
    · rw [if_neg hd] at hfc
      have hne : (d.key == c'.key) = false := by
        rw [hk, hks]
        simpa using hd
      rw [insertChild_cons, if_neg (by simp [hne])]
      rw [wfList]
      simp
      exact ⟨hwl.1, ih hfc hwl.2⟩

theorem modifyAt_spec : ∀ {n : Node T} {p : Path} {m : Node T}
    (f : Node T → Node T),
    get n p = some m → (f m).key = m.key → (f m).value = m.value →
    ∃ n', modifyAt n p f = some n' ∧
      n'.key = n.key ∧ n'.value = n.value ∧
      get n' p = some (f m) ∧
      (∀ sw, ¬ p <+: sw →
        Option.map value (get n' sw) = Option.map value (get n sw)) ∧
      (preorder n' ++ preorder m).Perm (preorder n ++ preorder (f m)) ∧
      (wf n = true → wf (f m) = true → wf n' = true) := by
  intro n p
  induction p generalizing n with
  | nil =>
    intro m f hget hkey hval
    simp at hget
    subst hget
    refine ⟨f n, rfl, hkey, hval, by simp, ?_, List.perm_append_comm, ?_⟩
    · intro sw hsw
      exact absurd (List.nil_prefix) hsw
    · intro _ hwff
      exact hwff
  | cons s rest ih =>
    intro m f hget hkey hval
    rw [get_cons] at hget
    cases hfc : findChild n.children s with
    | none => rw [hfc] at hget; cases hget
    | some c =>
      rw [hfc] at hget
      obtain ⟨c', hmod, hck, hcv, hcget, hcval, hcperm, hcwf⟩ :=
        ih f hget hkey hval
      obtain ⟨e1, e2, e3, e4⟩ := findChild_insertChild_replace hfc hck
      cases n with
      | mk k v cs =>
        simp only [children_mk] at hfc e1 e2 e3 e4
        refine ⟨Node.mk k v (insertChild cs c'), ?_, rfl, rfl, ?_, ?_, ?_, ?_⟩
        · rw [modifyAt]
          simp only [children_mk, hfc, hmod, key_mk, value_mk, Option.map_some']
        · rw [get_cons]
          simp only [children_mk, e1]
          exact hcget
        · intro sw hsw
          cases sw with
          | nil => simp
          | cons s2 sw' =>
            by_cases hs2 : s2 = s
            · subst hs2
              have hnp : ¬ rest <+: sw' := by
                intro hp
                exact hsw (List.cons_prefix_cons.2 ⟨rfl, hp⟩)
              rw [get_cons, get_cons]
              simp only [children_mk, e1, hfc]
              exact hcval sw' hnp
            · rw [get_cons, get_cons]
              simp only [children_mk]
              rw [e2 s2 hs2]
        · simp only [preorder_mk, List.cons_append]
          refine List.Perm.cons v ?_
          rw [← Multiset.coe_eq_coe] at e3 hcperm ⊢
          simp only [← Multiset.coe_add] at e3 hcperm ⊢
          have key : ((preorderList (insertChild cs c') : Multiset T) +
              (preorder m : Multiset T)) + (preorder c : Multiset T) =
              ((preorderList cs : Multiset T) +
                (preorder (f m) : Multiset T)) + (preorder c : Multiset T) := by
            calc ((preorderList (insertChild cs c') : Multiset T) +
                  (preorder m : Multiset T)) + (preorder c : Multiset T)
                = ((preorderList (insertChild cs c') : Multiset T) +
                  (preorder c : Multiset T)) + (preorder m : Multiset T) := by
                  rw [add_right_comm]
              _ = ((preorderList cs : Multiset T) +
                  (preorder c' : Multiset T)) + (preorder m : Multiset T) := by
                  rw [e3]
              _ = (preorderList cs : Multiset T) +
                  ((preorder c' : Multiset T) + (preorder m : Multiset T)) := by
                  rw [add_assoc]
              _ = (preorderList cs : Multiset T) +
                  ((preorder c : Multiset T) + (preorder (f m) : Multiset T)) := by
                  rw [hcperm]
              _ = ((preorderList cs : Multiset T) +
                  (preorder (f m) : Multiset T)) + (preorder c : Multiset T) := by
                  rw [← add_assoc, add_right_comm]
          exact add_right_cancel key
        · intro hwf hwff
          rw [wf]
          simp
          constructor
          · rw [e4]
            exact (wf_parts hwf).1
          · exact wfList_insertChild_replace hfc hck (wf_parts hwf).2
              (hcwf (wf_children hwf c (findChild_some hfc).1).1 hwff)

theorem findChild_none {cs : List (Node T)} {s : String}
    (h : findChild cs s = none) : ∀ d ∈ cs, d.key ≠ [s] := by
  intro d hd hk
  unfold findChild at h
  have := List.find?_eq_none.1 h d hd
  simp [hk] at this

theorem findChild_removeChild_self {cs : List (Node T)} {c : Node T}
    {s : String} (hfc : findChild cs s = some c)
    (hnd : (cs.map key).Nodup) : findChild (removeChild cs s) s = none := by
  induction cs with
  | nil => unfold findChild at hfc; cases hfc
  | cons d rest ih =>
    rw [findChild_cons] at hfc
    simp at hnd
    by_cases hd : (d.key == [s]) = true
    · rw [removeChild_cons, if_pos hd]
      unfold findChild
      rw [List.find?_eq_none]
      intro e he
      simp
      intro hke
      have hds : d.key = [s] := by simpa using hd
      exact hnd.1 e he (by rw [hke, hds])
    · rw [if_neg hd] at hfc
      rw [removeChild_cons, if_neg hd, findChild_cons, if_neg hd]
      exact ih hfc hnd.2

theorem findChild_append_fresh {cs : List (Node T)} {c : Node T} {s : String}
    (hfresh : findChild cs s = none) (hk : c.key = [s]) :
    findChild (cs ++ [c]) s = some c ∧
    (∀ s2, s2 ≠ s → findChild (cs ++ [c]) s2 = findChild cs s2) := by
  constructor
  · rw [findChild_append, hfresh]
    rw [findChild_cons, if_pos (by simp [hk])]
  · intro s2 hs2
    rw [findChild_append]
    have hc2 : findChild [c] s2 = none := by
      rw [findChild_cons]
      rw [if_neg (by simp [hk]; intro heq; exact absurd heq.symm hs2)]
      rfl
    cases hfc2 : findChild cs s2 with
    | some e => rfl
    | none => exact hc2

theorem wfList_append_one {cs : List (Node T)} {c : Node T}
    (hwl : wfList cs = true) (hwc : wf c = true) (hlen : c.key.length = 1) :
    wfList (cs ++ [c]) = true := by
  induction cs with
  | nil =>
    simp only [List.nil_append]
    rw [wfList, wfList]
    simp [hwc, hlen]
  | cons d rest ih =>
    rw [wfList] at hwl
    simp at hwl
    rw [List.cons_append, wfList]
    simp
    exact ⟨hwl.1, ih hwl.2⟩

theorem popAt_spec {root : Node T} {pp : Path} {s : String} {nd : Node T}
    (hget : get root (pp ++ [s]) = some nd) :
    ∃ root', popAt root (pp ++ [s]) = .ok (nd, root') ∧
      root'.key = root.key ∧ root'.value = root.value ∧
      (preorder root).Perm (preorder root' ++ preorder nd) ∧
      (∀ u, ¬ (pp ++ [s]) <+: u →
        Option.map value (get root' u) = Option.map value (get root u)) ∧
      (wf root = true → wf root' = true) ∧
      (wf root = true → get root' (pp ++ [s]) = none) := by
  rw [get_append] at hget
  cases hpar : get root pp with
  | none => rw [hpar] at hget; cases hget
  | some par =>
    rw [hpar] at hget
    simp only [Option.some_bind] at hget
    rw [get_singleton] at hget
    obtain ⟨n', hmod, hk', hv', hget', hval', hperm', hwf'⟩ :=
      modifyAt_spec (fun m => Node.mk m.key m.value (removeChild m.children s))
        hpar rfl rfl
    obtain ⟨r1, r2, r3, r4⟩ := removeChild_spec hget
    refine ⟨n', ?_, hk', hv', ?_, ?_, ?_, ?_⟩
    · unfold popAt
      rw [List.getLast?_concat, List.dropLast_concat]
      simp only [hpar, hget, hmod]
    · have hp : (preorder par).Perm
          (preorder (Node.mk par.key par.value (removeChild par.children s)) ++
            preorder nd) := by
        cases par with
        | mk pk pv pcs =>
          simp only [preorder_mk, key_mk, value_mk, children_mk,
            List.cons_append]
          exact List.Perm.cons pv r2
      rw [← Multiset.coe_eq_coe] at hp hperm' ⊢
      simp only [← Multiset.coe_add] at hp hperm' ⊢
      rw [hp] at hperm'
      have h2 : ((preorder n' : Multiset T) + (preorder nd : Multiset T)) +
          (preorder (Node.mk par.key par.value
            (removeChild par.children s)) : Multiset T) =
          (preorder root : Multiset T) +
          (preorder (Node.mk par.key par.value
            (removeChild par.children s)) : Multiset T) := by
        rw [← hperm']
        abel
      exact (add_right_cancel h2).symm
    · intro u hu
      by_cases hpp : pp <+: u
      · obtain ⟨u2, rfl⟩ := hpp
        have hu2 : ¬ [s] <+: u2 := by
          intro hp2
          exact hu (by
            obtain ⟨u3, rfl⟩ := hp2
            exact ⟨u3, by simp⟩)
        rw [get_append, get_append, hget', hpar]
        simp only [Option.some_bind]
        cases u2 with
        | nil => simp [hv']
        | cons s2 u3 =>
          have hs2 : s2 ≠ s := by
            intro heq
            subst heq
            exact hu2 ⟨u3, rfl⟩
          rw [get_cons, get_cons]
          simp only [children_mk]
          rw [r1 s2 hs2]
      · exact hval' u hpp
    · intro hwf
      refine hwf' hwf ?_
      have hwfpar : wf par = true := wf_get hwf hpar
      cases par with
      | mk pk pv pcs =>
        rw [wf]
        simp only [children_mk, key_mk, value_mk]
        simp
        constructor
        · exact ((wf_parts hwfpar).1).sublist r3
        · exact r4 (wf_parts hwfpar).2
    · intro hwf
      rw [get_append, hget']
      simp only [Option.some_bind]
      rw [get_singleton]
      have hwfpar : wf par = true := wf_get hwf hpar
      cases par with
      | mk pk pv pcs =>
        simp only [children_mk]
        exact findChild_removeChild_self hget (wf_parts hwfpar).1

end Node

/-- `Path::strip_prefix` of a path that extends the prefix. -/
theorem stripPre_append (a b : Path) : stripPre a (a ++ b) = some b := by
  unfold stripPre
  rw [if_pos]
  · rw [List.drop_left]
  · rw [List.isPrefixOf_iff_prefix]
    exact List.prefix_append a b

/-- The watch-descriptor values stored in an optional registry tree. -/
def treeVals {T : Type} : Option (Node T) → List T
  | none => []
  | some r => Node.preorder r

/-- C5: for a watch id `v` present in a consistent registry (well-keyed
tree, no duplicated descriptors, root keyed by the root path, side table
holding `v`, `v`'s node sitting at descent path `q`), `delete v` succeeds
and returns exactly the descriptors of the subtree rooted at `v`'s node —
`v` first, the rest in pre-order of the sibling-reversed subtree (the Rust
`HashMap` fixes no sibling order; `Node::values` visits siblings in
reverse of the model's child order) — removes that entire subtree from the
tree, and removes exactly the returned descriptors from the side table. -/
theorem C5_delete_subtree {T : Type} [DecidableEq T] (h : Head T) (v : T)
    (root nd : Node T) (q : Path)
    (htree : h.tree = some root)
    (hroot : root.key = h.pref)
    (hwf : root.wf = true)
    (hnodup : (Node.preorder root).Nodup)
    (hmem : h.table.contains v = true)
    (hfind : root.findValue v = some (root.key ++ q))
    (hget : Node.get root q = some nd)
    (hval : nd.value = v) :
    ∃ (h' : Head T) (vals : List T),
      h.delete v = .ok (h', vals) ∧
      vals = Node.preorder (Node.revAll nd) ∧
      vals.head? = some v ∧
      (∀ x, x ∈ vals ↔ x ∈ Node.preorder nd) ∧
      (∀ x, x ∈ h'.table ↔ (x ∈ h.table ∧ x ∉ vals)) ∧
      (∀ x, x ∈ treeVals h'.tree ↔ (x ∈ treeVals h.tree ∧ x ∉ vals)) := by
  have hvals_perm := Node.values_perm_preorder nd
  have hmemvals : ∀ x, x ∈ nd.values ↔ x ∈ Node.preorder nd :=
    fun x => hvals_perm.mem_iff
  unfold Head.delete
  rw [if_neg (by simpa using hmem)]
  simp only [htree, hfind, hroot, stripPre_append]
  cases hq : q with
  | nil =>
    have hnd : nd = root := by
      rw [hq] at hget
      simpa using hget.symm
    subst hnd
    simp only [List.isEmpty_nil]
    refine ⟨_, _, rfl, Node.values_eq nd, ?_, hmemvals, ?_, ?_⟩
    · rw [Node.values_head, hval]
    · intro x
      simp [List.mem_filter]
    · intro x
      simp only [treeVals]
      constructor
      · intro hx
        cases hx
      · rintro ⟨hx, hnx⟩
        exact absurd ((hmemvals x).2 hx) hnx
  | cons s0 rest0 =>
    have hqne : q ≠ [] := by rw [hq]; simp
    have hdec : q.dropLast ++ [q.getLast hqne] = q :=
      List.dropLast_append_getLast hqne
    rw [← hq] at *
    rw [← hdec] at hget
    obtain ⟨root', hpop, hk', hv', hperm, hpres, hwf', hnone⟩ :=
      Node.popAt_spec hget
    have hne : ¬ q.isEmpty := by
      rw [List.isEmpty_iff]
      exact hqne
    rw [if_neg hne, ← hdec, hpop]
    refine ⟨_, _, rfl, Node.values_eq nd, ?_, hmemvals, ?_, ?_⟩
    · rw [Node.values_head, hval]
    · intro x
      simp [List.mem_filter]
    · intro x
      simp only [treeVals]
      have hmemroot : ∀ y, y ∈ Node.preorder root ↔
          (y ∈ Node.preorder root' ∨ y ∈ Node.preorder nd) := by
        intro y
        rw [hperm.mem_iff]
        simp
      have hnds : (Node.preorder root' ++ Node.preorder nd).Nodup :=
        hperm.nodup_iff.1 hnodup
      have hdisj := List.disjoint_of_nodup_append hnds
      constructor
      · intro hx
        refine ⟨(hmemroot x).2 (Or.inl hx), ?_⟩
        intro hxv
        exact hdisj hx ((hmemvals x).1 hxv)
      · rintro ⟨hx, hnx⟩
        rcases (hmemroot x).1 hx with hx' | hx'
        · exact hx'
        · exact absurd ((hmemvals x).2 hx') hnx

namespace Node

variable {T : Type}

/-- Every value in a well-keyed tree is reachable by a descent path. -/
theorem mem_preorder_get [DecidableEq T] : ∀ {n : Node T}, wf n = true →
    ∀ {x : T}, x ∈ preorder n → ∃ p m, get n p = some m ∧ m.value = x := by
  intro n
  induction n using inductionOn with
  | step k v cs ih =>
    intro hwf x hx
    rw [preorder_mk] at hx
    rcases List.mem_cons.1 hx with hxv | hx
    · exact ⟨[], Node.mk k v cs, by simp, hxv.symm⟩
    · obtain ⟨c, hc, hxc⟩ := mem_preorderList.1 hx
      have hch : c ∈ (Node.mk k v cs).children := by simpa using hc
      obtain ⟨hwfc, hlen⟩ := wf_children hwf c hch
      obtain ⟨s, hs⟩ := key_singleton_of_length hlen
      obtain ⟨p, m, hm, hv⟩ := ih c hc hwfc hxc
      refine ⟨s :: p, m, ?_, hv⟩
      rw [get_cons]
      simp only [children_mk]
      simp only [findChild_of_mem (wf_parts hwf).1 hc hs]
      exact hm

end Node

/-- The tree of the sample registry `head0`. -/
def node0 : Node Int :=
  Node.mk ["r"] 1 [Node.mk ["a"] 2 [Node.mk ["d"] 4 []], Node.mk ["b"] 3 []]

/-- The subtree of `head0` rooted at watch 2 (`r/a`, containing `r/a/d`). -/
def node0a : Node Int := Node.mk ["a"] 2 [Node.mk ["d"] 4 []]

/-- C5 witness: deleting watch 2 from `head0` removes the subtree
`{2, 4}` rooted at `r/a`. -/
theorem C5_witness :
    ∃ (h' : Head Int) (vals : List Int),
      head0.delete 2 = .ok (h', vals) ∧
      vals = Node.preorder (Node.revAll node0a) ∧
      vals.head? = some 2 ∧
      (∀ x, x ∈ vals ↔ x ∈ Node.preorder node0a) ∧
      (∀ x, x ∈ h'.table ↔ (x ∈ head0.table ∧ x ∉ vals)) ∧
      (∀ x, x ∈ treeVals h'.tree ↔ (x ∈ treeVals head0.tree ∧ x ∉ vals)) :=
  C5_delete_subtree head0 2 node0 node0a ["a"] rfl rfl rfl (by decide)
    rfl rfl rfl rfl

/-! ## The uplink heap model of `path_tree.rs`

The `Head`/`Node` model above resolves a watch's path root-down through
the children maps, which coincides with the Rust code on consistent
registries.  `Head::path` in Rust, however, resolves through the side
table's strong `Arc` and the node's *parent uplinks* (`Node::path` walks
`self.parent.upgrade()`), so a node that has been detached from the tree
but is still referenced by the table keeps resolving.  The model below
captures this: each `Arc<Mutex<Node>>` identity becomes a numeric id in a
node store, children maps hold ids, and the parent uplink is an optional
id (`none` models a `Weak` that does not upgrade).  The uplink loop of
`Node::path` has no bound in Rust; the model takes an explicit step
budget (`fuel`) and returns `none` when it is exhausted — on a parent
cycle this models the Rust loop never terminating — and on registries
where the walk terminates the result is the same for every sufficiently
large budget (`hPath_stable`). -/

/-- A node of the Rust path tree as it sits in memory (`Node<T>` in
`path_tree.rs`): its key (the root holds its full path, every other node
a single segment), the value, the parent uplink (`Weak<Mutex<Node>>`),
and the children map (`HashMap<OsString, Arc<Mutex<Node>>>`), modelled as
an association list of segment and id. -/
structure RNode (T : Type) where
  key : Path
  value : T
  parent : Option Nat
  children : List (String × Nat)

/-- The node store: resolves each live `Arc` id to its node. -/
abbrev Store (T : Type) := List (Nat × RNode T)

/-- Dereference an id (follow the `Arc`). -/
def storeFind {T : Type} (st : Store T) (i : Nat) : Option (RNode T) :=
  (st.find? (fun p => p.fst == i)).map Prod.snd

/-- Mutate the node behind an id (write through the `Mutex`). -/
def storeSet {T : Type} (st : Store T) (i : Nat) (n : RNode T) : Store T :=
  st.map (fun p => if p.fst == i then (i, n) else p)

/-- `children.get(segment)` on the id-valued children map. -/
def childGet (cs : List (String × Nat)) (s : String) : Option Nat :=
  (cs.find? (fun p => p.fst == s)).map Prod.snd

/-- `HashMap::insert` on the id-valued children map: replace the entry
with the same key, or add a new one. -/
def childInsert (cs : List (String × Nat)) (s : String) (i : Nat) :
    List (String × Nat) :=
  match cs with
  | [] => [(s, i)]
  | p :: rest => if p.fst == s then (s, i) :: rest else p :: childInsert rest s i

/-- `HashMap::remove` on the id-valued children map. -/
def childRemove (cs : List (String × Nat)) (s : String) : List (String × Nat) :=
  match cs with
  | [] => []
  | p :: rest => if p.fst == s then rest else p :: childRemove rest s

/-- `Node::get` on the store: descend from id `i` along the path through
the children maps.  The dangling-id stop is a model artifact: in Rust a
children map holds strong `Arc`s, so every id it yields is live. -/
def hGet {T : Type} (st : Store T) : Nat → Path → Option Nat
  | i, [] => some i
  | i, s :: rest =>
    match storeFind st i with
    | none => none
    | some n =>
      match childGet n.children s with
      | some j => hGet st j rest
      | none => none

/-- `Node::path` on the store: walk the parent uplinks from id `i`,
collecting keys root-first.  The walk stops at a node with no parent or
whose parent's `Weak` does not upgrade (the id is not in the store); the
explicit `fuel` models the unbounded Rust loop, `none` on exhaustion. -/
def hPath {T : Type} (st : Store T) : Nat → Nat → Option Path
  | 0, _ => none
  | fuel + 1, i =>
    match storeFind st i with
    | none => none
    | some n =>
      match n.parent with
      | none => some n.key
      | some j =>
        match storeFind st j with
        | none => some n.key
        | some _ => (hPath st fuel j).map (fun pre => pre ++ n.key)

/-- Whether the uplink chain from id `i` reaches id `bad` within `fuel`
steps: the subtree membership test for the uplink model (a watch is in the
subtree of a node exactly when its chain passes through that node). -/
def passes {T : Type} (st : Store T) (bad : Nat) : Nat → Nat → Bool
  | 0, _ => false
  | fuel + 1, i =>
    i == bad ||
      match storeFind st i with
      | none => false
      | some n =>
        match n.parent with
        | none => false
        | some j =>
          match storeFind st j with
          | none => false
          | some _ => passes st bad fuel j

/-- `Node::pop` on the store: find the parent of the node at `p` by a
root-down descent and remove the last segment of `p` from its children
map; the popped node itself stays in the store (the caller and the side
table still hold `Arc`s to it). -/
def hPop {T : Type} (st : Store T) (root : Nat) (p : Path) :
    Except PTError (Nat × Store T) :=
  match p.getLast? with
  | none => .error (.InvalidPath p)
  | some name =>
    match hGet st root p.dropLast with
    | none => .error (.PathNotFound p)
    | some parId =>
      match storeFind st parId with
      | none => .error (.PathNotFound p)
      | some parN =>
        match childGet parN.children name with
        | none => .error (.PathNotFound p)
        | some i =>
          .ok (i, storeSet st parId
            { parN with children := childRemove parN.children name })

/-- `Node::rename` on the store: pop the node at `oldP`, rekey it with the
last segment of `newP`, repoint its parent uplink at the node found at
`newP.parent()`, and insert its id into that parent's children map (a
`HashMap` insert, so an existing same-named entry is silently replaced —
which drops no uplink, hence changes no resolved path).  As in the tree
model, an error after the pop carries the partially mutated store.  The
two dangling-id stops are model artifacts: the popped node and the parent
found by `hGet` are behind live `Arc`s in Rust. -/
def hRename {T : Type} (st : Store T) (root : Nat) (oldP newP : Path) :
    Store T × Option PTError :=
  match hPop st root oldP with
  | .error e => (st, some e)
  | .ok (i, st1) =>
    match newP.getLast? with
    | none => (st1, some (.InvalidPath newP))
    | some newName =>
      match hGet st1 root newP.dropLast with
      | none => (st1, some (.PathNotFound newP))
      | some parId =>
        match storeFind st1 i with
        | none => (st1, some (.PathNotFound oldP))
        | some ni =>
          let st2 := storeSet st1 i
            { ni with key := [newName], parent := some parId }
          match storeFind st2 parId with
          | none => (st2, some (.PathNotFound newP))
          | some np2 =>
            (storeSet st2 parId
              { np2 with children := childInsert np2.children newName i }, none)

/-- The side-table lookup (`self.table.get(&value)`). -/
def tableGet {T : Type} [DecidableEq T] (tb : List (T × Nat)) (v : T) :
    Option Nat :=
  (tb.find? (fun p => p.fst == v)).map Prod.snd

/-- `Head<T>` with node identity: the root path, the side table as a map
from value to node id (the strong `Arc`s it holds keep every mapped id
live in the store), the optional tree root id, and the node store. -/
structure RHead (T : Type) where
  pref : Path
  table : List (T × Nat)
  tree : Option Nat
  store : Store T

/-- `Head::path` over the uplink model: index the side table (an unknown
value panics in Rust — `none` here) and walk the node's parent uplinks
with the given step budget. -/
def RHead.path {T : Type} [DecidableEq T] (h : RHead T) (fuel : Nat) (v : T) :
    Option Path :=
  match tableGet h.table v with
  | none => none
  | some i => hPath h.store fuel i

/-- `Head::rename` over the uplink model: look the value up
(`ValueNotFound` if absent), reconstruct its old path by the uplink walk
(the budget `fuel` is threaded in; the exhaustion branch stands for the
Rust loop not terminating and is unreachable for adequate budgets), strip
both paths, and perform the store surgery.  The side table is untouched
(`&self` in Rust). -/
def RHead.rename {T : Type} [DecidableEq T] (h : RHead T) (fuel : Nat) (v : T)
    (newPath : Path) : RHead T × Option PTError :=
  match tableGet h.table v with
  | none => (h, some .ValueNotFound)
  | some i =>
    match hPath h.store fuel i with
    | none => (h, some (.InvalidPath []))
    | some oldPath =>
      match stripPre h.pref oldPath with
      | none => (h, some (.PrefixMismatched oldPath))
      | some oldRest =>
        match stripPre h.pref newPath with
        | none => (h, some (.PrefixMismatched newPath))
        | some newRest =>
          match h.tree with
          | none => (h, some .EmptyTree)
          | some rootId =>
            let res := hRename h.store rootId oldRest newRest
            ({ h with store := res.fst }, res.snd)

/-- The key and parent uplink behind an id: all that `Node::path` ever
reads.  The store surgeries below are compared through this view. -/
def keyPar {T : Type} (st : Store T) (i : Nat) : Option (Path × Option Nat) :=
  (storeFind st i).map (fun n => (n.key, n.parent))

section UplinkLemmas

variable {T : Type}

theorem storeFind_cons (p : Nat × RNode T) (rest : Store T) (i : Nat) :
    storeFind (p :: rest) i =
      if (p.fst == i) = true then some p.snd else storeFind rest i := by
  unfold storeFind
  rw [List.find?_cons]
  by_cases h : (p.fst == i) = true <;> simp [h]

theorem storeSet_cons (p : Nat × RNode T) (rest : Store T) (i : Nat)
    (n : RNode T) :
    storeSet (p :: rest) i n =
      (if (p.fst == i) = true then (i, n) else p) :: storeSet rest i n := rfl

theorem storeFind_set_ne (st : Store T) (i j : Nat) (n : RNode T)
    (h : j ≠ i) : storeFind (storeSet st i n) j = storeFind st j := by
  induction st with
  | nil => rfl
  | cons p rest ih =>
    rw [storeSet_cons]
    by_cases hp : (p.fst == i) = true
    · have hpi : p.fst = i := by simpa using hp
      have hij : ((i : Nat) == j) = false := by
        simp
        exact fun hh => h hh.symm
      rw [if_pos hp, storeFind_cons, storeFind_cons]
      simp only [hpi]
      simpa [hij] using ih
    · rw [if_neg hp, storeFind_cons, storeFind_cons]
      by_cases hj : (p.fst == j) = true
      · rw [if_pos hj, if_pos hj]
      · rw [if_neg hj, if_neg hj]
        exact ih

theorem storeFind_set_self (st : Store T) (i : Nat) (n m : RNode T)
    (h : storeFind st i = some m) : storeFind (storeSet st i n) i = some n := by
  induction st with
  | nil => simp [storeFind] at h
  | cons p rest ih =>
    rw [storeFind_cons] at h
    rw [storeSet_cons]
    by_cases hp : (p.fst == i) = true
    · rw [if_pos hp, storeFind_cons]
      rw [if_pos (by simp)]
    · rw [if_neg hp] at h
      rw [if_neg hp, storeFind_cons]
      rw [if_neg hp]
      exact ih h

theorem keyPar_set_ne (st : Store T) (i j : Nat) (n : RNode T) (h : j ≠ i) :
    keyPar (storeSet st i n) j = keyPar st j := by
  unfold keyPar
  rw [storeFind_set_ne st i j n h]

theorem keyPar_set_same (st : Store T) (i : Nat) (n m : RNode T)
    (hfind : storeFind st i = some m) (hk : n.key = m.key)
    (hp : n.parent = m.parent) :
    ∀ j, keyPar (storeSet st i n) j = keyPar st j := by
  intro j
  by_cases hj : j = i
  · subst hj
    unfold keyPar
    rw [storeFind_set_self st j n m hfind, hfind]
    simp [hk, hp]
  · exact keyPar_set_ne st i j n hj

theorem keyPar_none_elim {st st' : Store T} {i : Nat}
    (h : keyPar st' i = keyPar st i) (hfi : storeFind st i = none) :
    storeFind st' i = none := by
  unfold keyPar at h
  rw [hfi] at h
  cases hx : storeFind st' i with
  | none => rfl
  | some n => rw [hx] at h; simp at h

theorem keyPar_some_elim {st st' : Store T} {i : Nat} {n : RNode T}
    (h : keyPar st' i = keyPar st i) (hfi : storeFind st i = some n) :
    ∃ n', storeFind st' i = some n' ∧ n'.key = n.key ∧ n'.parent = n.parent := by
  unfold keyPar at h
  rw [hfi] at h
  cases hx : storeFind st' i with
  | none => rw [hx] at h; simp at h
  | some n' =>
    rw [hx] at h
    simp at h
    exact ⟨n', rfl, h.1, h.2⟩

theorem keyPar_some_find {st : Store T} {i : Nat} {pr : Path × Option Nat}
    (h : keyPar st i = some pr) :
    ∃ n, storeFind st i = some n ∧ n.key = pr.fst ∧ n.parent = pr.snd := by
  unfold keyPar at h
  cases hx : storeFind st i with
  | none => rw [hx] at h; simp at h
  | some n =>
    rw [hx] at h
    simp at h
    exact ⟨n, rfl, by rw [← h], by rw [← h]⟩

theorem hPath_congr (st st' : Store T)
    (h : ∀ j, keyPar st' j = keyPar st j) :
    ∀ fuel i, hPath st' fuel i = hPath st fuel i := by
  intro fuel
  induction fuel with
  | zero => intro i; rfl
  | succ f ih =>
    intro i
    cases hfi : storeFind st i with
    | none =>
      have hfi' := keyPar_none_elim (h i) hfi
      simp [hPath, hfi, hfi']
    | some n =>
      obtain ⟨n', hfi', hk, hpp⟩ := keyPar_some_elim (h i) hfi
      cases hpar : n.parent with
      | none => simp [hPath, hfi, hfi', hk, hpp, hpar]
      | some j =>
        cases hfj : storeFind st j with
        | none =>
          have hfj' := keyPar_none_elim (h j) hfj
          simp [hPath, hfi, hfi', hk, hpp, hpar, hfj, hfj']
        | some mj =>
          obtain ⟨mj', hfj', _, _⟩ := keyPar_some_elim (h j) hfj
          simp [hPath, hfi, hfi', hk, hpp, hpar, hfj, hfj', ih j]

theorem hPath_stable (st : Store T) :
    ∀ fuel i p, hPath st fuel i = some p →
    ∀ fl, fuel ≤ fl → hPath st fl i = some p := by
  intro fuel
  induction fuel with
  | zero => intro i p h; simp [hPath] at h
  | succ f ih =>
    intro i p h fl hfl
    obtain ⟨fl', rfl⟩ : ∃ fl', fl = fl' + 1 := ⟨fl - 1, by omega⟩
    have hf' : f ≤ fl' := by omega
    cases hfi : storeFind st i with
    | none => simp [hPath, hfi] at h
    | some n =>
      cases hpar : n.parent with
      | none =>
        simp only [hPath, hfi, hpar] at h ⊢
        exact h
      | some j =>
        cases hfj : storeFind st j with
        | none =>
          simp only [hPath, hfi, hpar, hfj] at h ⊢
          exact h
        | some mj =>
          simp only [hPath, hfi, hpar, hfj] at h ⊢
          cases hpj : hPath st f j with
          | none => rw [hpj] at h; simp at h
          | some pj =>
            rw [hpj] at h
            rw [ih j pj hpj fl' hf']
            exact h

theorem hPath_det (st : Store T) {f1 f2 i : Nat} {p q : Path}
    (h1 : hPath st f1 i = some p) (h2 : hPath st f2 i = some q) : p = q := by
  have ha := hPath_stable st f1 i p h1 (max f1 f2) (le_max_left _ _)
  have hb := hPath_stable st f2 i q h2 (max f1 f2) (le_max_right _ _)
  rw [ha] at hb
  exact Option.some.inj hb

theorem hPath_some_find (st : Store T) {f i : Nat} {p : Path}
    (h : hPath st f i = some p) : (storeFind st i).isSome = true := by
  cases f with
  | zero => simp [hPath] at h
  | succ f' =>
    cases hfi : storeFind st i with
    | none => simp [hPath, hfi] at h
    | some n => simp [hfi]

theorem hPath_bypass (st st' : Store T) (bad : Nat)
    (hoff : ∀ j, j ≠ bad → keyPar st' j = keyPar st j)
    (hparity : (storeFind st bad).isSome = (storeFind st' bad).isSome) :
    ∀ fuel i, passes st bad fuel i = false →
    hPath st' fuel i = hPath st fuel i := by
  intro fuel
  induction fuel with
  | zero => intro i _; rfl
  | succ f ih =>
    intro i hp
    simp only [passes, Bool.or_eq_false_iff] at hp
    obtain ⟨hp1, hp2⟩ := hp
    have hibad : i ≠ bad := by simpa using hp1
    cases hfi : storeFind st i with
    | none =>
      have hfi' := keyPar_none_elim (hoff i hibad) hfi
      simp [hPath, hfi, hfi']
    | some n =>
      obtain ⟨n', hfi', hk, hpp⟩ := keyPar_some_elim (hoff i hibad) hfi
      simp only [hfi] at hp2
      cases hpar : n.parent with
      | none => simp [hPath, hfi, hfi', hk, hpp, hpar]
      | some j =>
        simp only [hpar] at hp2
        by_cases hjbad : j = bad
        · subst hjbad
          cases hfb : storeFind st j with
          | none =>
            have hfb' : storeFind st' j = none := by
              rw [hfb] at hparity
              cases hx : storeFind st' j with
              | none => rfl
              | some m => rw [hx] at hparity; simp at hparity
            simp [hPath, hfi, hfi', hk, hpp, hpar, hfb, hfb']
          | some mb =>
            simp only [hfb] at hp2
            cases f with
            | zero =>
              have hsome' : ∃ mb', storeFind st' j = some mb' := by
                rw [hfb] at hparity
                cases hx : storeFind st' j with
                | none => rw [hx] at hparity; simp at hparity
                | some mb' => exact ⟨mb', rfl⟩
              obtain ⟨mb', hfb'⟩ := hsome'
              simp [hPath, hfi, hfi', hk, hpp, hpar, hfb, hfb']
            | succ f2 =>
              simp [passes] at hp2
        · cases hfj : storeFind st j with
          | none =>
            have hfj' := keyPar_none_elim (hoff j hjbad) hfj
            simp [hPath, hfi, hfi', hk, hpp, hpar, hfj, hfj']
          | some mj =>
            simp only [hfj] at hp2
            obtain ⟨mj', hfj', _, _⟩ := keyPar_some_elim (hoff j hjbad) hfj
            simp only [hPath, hfi, hfi', hk, hpp, hpar, hfj, hfj']
            rw [ih j hp2]

theorem hPath_reroute (st st' : Store T) (bad destPar fR fuelD : Nat)
    (oldR newParPath : Path) (nl : String)
    (hoff : ∀ j, j ≠ bad → keyPar st' j = keyPar st j)
    (hbadnew : keyPar st' bad = some ([nl], some destPar))
    (holdR : hPath st fR bad = some oldR)
    (hdest : hPath st' fuelD destPar = some newParPath)
    (hdpres : (storeFind st' destPar).isSome = true) :
    ∀ fuel i p, passes st bad fuel i = true → hPath st fuel i = some p →
      ∃ rel, p = oldR ++ rel ∧
        ∀ fl, fuelD + fuel ≤ fl →
          hPath st' fl i = some ((newParPath ++ [nl]) ++ rel) := by
  intro fuel
  induction fuel with
  | zero => intro i p hp; simp [passes] at hp
  | succ f ih =>
    intro i p hp h
    by_cases hib : i = bad
    · subst hib
      have hpq : p = oldR := hPath_det st h holdR
      refine ⟨[], by simp [hpq], ?_⟩
      intro fl hfl
      obtain ⟨fl', rfl⟩ : ∃ fl', fl = fl' + 1 := ⟨fl - 1, by omega⟩
      obtain ⟨nb, hnb, hnbk, hnbp⟩ := keyPar_some_find hbadnew
      obtain ⟨nd, hnd⟩ := Option.isSome_iff_exists.1 hdpres
      have hfl' : fuelD ≤ fl' := by omega
      have hdest' := hPath_stable st' fuelD destPar newParPath hdest fl' hfl'
      simp [hPath, hnb, hnbk, hnbp, hnd, hdest']
    · simp only [passes, Bool.or_eq_true] at hp
      rcases hp with hp1 | hp2
      · exact absurd (by simpa using hp1) hib
      cases hfi : storeFind st i with
      | none => simp [hfi] at hp2
      | some n =>
        simp only [hfi] at hp2
        cases hpar : n.parent with
        | none => simp [hpar] at hp2
        | some j =>
          simp only [hpar] at hp2
          cases hfj : storeFind st j with
          | none => simp [hfj] at hp2
          | some mj =>
            simp only [hfj] at hp2
            simp only [hPath, hfi, hpar, hfj] at h
            cases hpj : hPath st f j with
            | none => rw [hpj] at h; simp at h
            | some pj =>
              rw [hpj] at h
              simp only [Option.map_some'] at h
              obtain ⟨rel, hrel, hc⟩ := ih j pj hp2 hpj
              refine ⟨rel ++ n.key, ?_, ?_⟩
              · rw [(Option.some.inj h).symm, hrel, List.append_assoc]
              · intro fl hfl
                obtain ⟨fl', rfl⟩ : ∃ fl', fl = fl' + 1 := ⟨fl - 1, by omega⟩
                obtain ⟨n', hfi', hk, hpp⟩ :=
                  keyPar_some_elim (hoff i hib) hfi
                have hjs : ∃ mj', storeFind st' j = some mj' := by
                  by_cases hjb : j = bad
                  · subst hjb
                    obtain ⟨nb, hnb, _, _⟩ := keyPar_some_find hbadnew
                    exact ⟨nb, hnb⟩
                  · obtain ⟨mj', hfj', _, _⟩ :=
                      keyPar_some_elim (hoff j hjb) hfj
                    exact ⟨mj', hfj'⟩
                obtain ⟨mj', hfj'⟩ := hjs
                have hcfl : hPath st' fl' j = some ((newParPath ++ [nl]) ++ rel) :=
                  hc fl' (by omega)
                simp [hPath, hfi', hk, hpp, hpar, hfj', hcfl, List.append_assoc]

theorem hPop_keyPar {st st1 : Store T} {root i : Nat} {p : Path}
    (h : hPop st root p = .ok (i, st1)) :
    ∀ j, keyPar st1 j = keyPar st j := by
  unfold hPop at h
  cases hlast : p.getLast? with
  | none => simp [hlast] at h
  | some name =>
    simp only [hlast] at h
    cases hgp : hGet st root p.dropLast with
    | none => simp [hgp] at h
    | some parId =>
      simp only [hgp] at h
      cases hfp : storeFind st parId with
      | none => simp [hfp] at h
      | some parN =>
        simp only [hfp] at h
        cases hcg : childGet parN.children name with
        | none => simp [hcg] at h
        | some i0 =>
          simp only [hcg] at h
          simp at h
          rw [← h.2]
          exact keyPar_set_same st parId _ parN hfp rfl rfl

end UplinkLemmas

/-- C2: subtree consistency under rename, over the uplink model that
captures the Rust `Arc`/`Weak` node graph.  `Head::path` resolves through
the side table's strong reference and the node's parent uplinks, and
`Node::rename` mutates only the renamed node's key and parent uplink
besides two children maps that path resolution never reads.  Hence in a
consistent registry (the node of watch `rwd` resolves by uplinks to
`h.pref ++ oldRest` and the root-down pop detaches exactly it; the
destination parent exists and its chain lies outside the renamed
subtree), renaming to `newPath = h.pref ++ np ++ [nl]` succeeds, leaves
the side table untouched, every watch whose uplink chain passes through
the renamed node — the subtree — afterwards resolves to `newPath`
extended by its old path relative to the renamed node, and every watch
whose chain avoids the renamed node keeps exactly its previous path, at
every step budget.  No vacancy condition on the destination is needed: a
colliding `HashMap` insert replaces a children-map entry but severs no
uplink, so even then outside watches keep resolving to their old
paths. -/
theorem C2_rename_subtree {T : Type} [DecidableEq T] (h : RHead T)
    (rwd : T) (iR rootId destParId fuelR fuelD : Nat)
    (nR1 nP1 : RNode T) (st1 : Store T)
    (oldRest np : Path) (nl : String) (newPath : Path)
    (htable : tableGet h.table rwd = some iR)
    (htree : h.tree = some rootId)
    (hold : hPath h.store fuelR iR = some (h.pref ++ oldRest))
    (hnewPath : newPath = h.pref ++ (np ++ [nl]))
    (hpop : hPop h.store rootId oldRest = .ok (iR, st1))
    (hget2 : hGet st1 rootId np = some destParId)
    (hfind1 : storeFind st1 iR = some nR1)
    (hfindP : storeFind st1 destParId = some nP1)
    (hne : destParId ≠ iR)
    (hdest : hPath h.store fuelD destParId = some (h.pref ++ np))
    (havoidD : passes h.store iR fuelD destParId = false) :
    ∃ h' : RHead T,
      RHead.rename h fuelR rwd newPath = (h', none) ∧
      h'.pref = h.pref ∧ h'.table = h.table ∧ h'.tree = h.tree ∧
      (∀ w iw pw fw, tableGet h.table w = some iw →
        hPath h.store fw iw = some pw →
        passes h.store iR fw iw = true →
        ∃ rel, pw = (h.pref ++ oldRest) ++ rel ∧
          ∃ F0, ∀ fl, F0 ≤ fl →
            RHead.path h' fl w = some (newPath ++ rel)) ∧
      (∀ w iw fl, tableGet h.table w = some iw →
        passes h.store iR fl iw = false →
        RHead.path h' fl w = RHead.path h fl w) := by
  have A1 : ∀ j, keyPar st1 j = keyPar h.store j := hPop_keyPar hpop
  have hkiR : keyPar h.store iR = some (nR1.key, nR1.parent) := by
    rw [← A1 iR]
    unfold keyPar
    rw [hfind1]
    rfl
  have hbadold : (storeFind h.store iR).isSome = true := by
    obtain ⟨n0, hn0, _, _⟩ := keyPar_some_find hkiR
    rw [hn0]
    rfl
  obtain ⟨st2, hst2⟩ : ∃ s, s = storeSet st1 iR
      { nR1 with key := [nl], parent := some destParId } := ⟨_, rfl⟩
  obtain ⟨st4, hst4⟩ : ∃ s, s = storeSet st2 destParId
      { nP1 with children := childInsert nP1.children nl iR } := ⟨_, rfl⟩
  have hfP2 : storeFind st2 destParId = some nP1 := by
    rw [hst2, storeFind_set_ne st1 iR destParId _ hne]
    exact hfindP
  have hren : hRename h.store rootId oldRest (np ++ [nl]) = (st4, none) := by
    rw [hst4, hst2]
    have hfP2a : storeFind (storeSet st1 iR
        { nR1 with key := [nl], parent := some destParId }) destParId
        = some nP1 := by
      rw [storeFind_set_ne st1 iR destParId _ hne]
      exact hfindP
    simp only [hRename, hpop, List.getLast?_concat, List.dropLast_concat,
      hget2, hfind1, hfP2a]
  have A3 : ∀ j, keyPar st4 j = keyPar st2 j := by
    rw [hst4]
    exact keyPar_set_same st2 destParId _ nP1 hfP2 rfl rfl
  have hoff2 : ∀ j, j ≠ iR → keyPar st2 j = keyPar h.store j := by
    intro j hj
    rw [hst2, keyPar_set_ne st1 iR j _ hj]
    exact A1 j
  have hbad2 : keyPar st2 iR = some ([nl], some destParId) := by
    rw [hst2]
    unfold keyPar
    rw [storeFind_set_self st1 iR _ nR1 hfind1]
    rfl
  have hoff4 : ∀ j, j ≠ iR → keyPar st4 j = keyPar h.store j := by
    intro j hj
    rw [A3 j]
    exact hoff2 j hj
  have hbad4 : keyPar st4 iR = some ([nl], some destParId) := by
    rw [A3 iR]
    exact hbad2
  have hparity2 : (storeFind h.store iR).isSome = (storeFind st2 iR).isSome := by
    obtain ⟨nb, hnb, _, _⟩ := keyPar_some_find hbad2
    rw [hnb, hbadold]
    rfl
  have hparity4 : (storeFind h.store iR).isSome = (storeFind st4 iR).isSome := by
    obtain ⟨nb, hnb, _, _⟩ := keyPar_some_find hbad4
    rw [hnb, hbadold]
    rfl
  have hdest2 : hPath st2 fuelD destParId = some (h.pref ++ np) := by
    rw [hPath_bypass h.store st2 iR hoff2 hparity2 fuelD destParId havoidD]
    exact hdest
  have hdest4 : hPath st4 fuelD destParId = some (h.pref ++ np) := by
    rw [hPath_congr st2 st4 A3 fuelD destParId]
    exact hdest2
  have hdpres4 : (storeFind st4 destParId).isSome = true :=
    hPath_some_find st4 hdest4
  have hrenH : RHead.rename h fuelR rwd newPath =
      ({ h with store := st4 }, none) := by
    simp only [RHead.rename, htable, hold, hnewPath, stripPre_append, htree,
      hren]
  have hpeq : ∀ fl w, RHead.path { h with store := st4 } fl w =
      (match tableGet h.table w with
       | none => none
       | some i => hPath st4 fl i) := fun fl w => rfl
  refine ⟨{ h with store := st4 }, hrenH, rfl, rfl, rfl, ?_, ?_⟩
  · intro w iw pw fw htw hpw hpass
    obtain ⟨rel, hrel, hc⟩ := hPath_reroute h.store st4 iR destParId fuelR
      fuelD (h.pref ++ oldRest) (h.pref ++ np) nl hoff4 hbad4 hold hdest4
      hdpres4 fw iw pw hpass hpw
    refine ⟨rel, hrel, fuelD + fw, ?_⟩
    intro fl hfl
    rw [hpeq fl w]
    simp only [htw]
    rw [hc fl hfl, hnewPath]
    simp [List.append_assoc]
  · intro w iw fl htw hpass
    rw [hpeq fl w]
    simp only [htw]
    have hby := hPath_bypass h.store st4 iR hoff4 hparity4 fl iw hpass
    rw [hby]
    simp only [RHead.path, htw]

/-- The store of the sample registry for the uplink model: root `r`
(id 1, wd 1) with children `a` (id 2, wd 2, holding `d` with id 4, wd 4)
and `b` (id 3, wd 3). -/
def rstore0 : Store Int :=
  [ (1, { key := ["r"], value := 1, parent := none,
          children := [("a", 2), ("b", 3)] }),
    (2, { key := ["a"], value := 2, parent := some 1,
          children := [("d", 4)] }),
    (3, { key := ["b"], value := 3, parent := some 1, children := [] }),
    (4, { key := ["d"], value := 4, parent := some 2, children := [] }) ]

/-- The sample registry head over `rstore0`. -/
def rhead0 : RHead Int :=
  { pref := ["r"], table := [(1, 1), (2, 2), (3, 3), (4, 4)],
    tree := some 1, store := rstore0 }

/-- The store after popping node 2 (`r/a`) from its parent. -/
def rstore1 : Store Int :=
  [ (1, { key := ["r"], value := 1, parent := none,
          children := [("b", 3)] }),
    (2, { key := ["a"], value := 2, parent := some 1,
          children := [("d", 4)] }),
    (3, { key := ["b"], value := 3, parent := some 1, children := [] }),
    (4, { key := ["d"], value := 4, parent := some 2, children := [] }) ]

/-- C2 witness: in `rhead0`, renaming watch 2 (`r/a`, whose subtree holds
the watched descendant 4 at `r/a/d`) to `r/b/a2` succeeds; every watch
whose uplink chain passes through node 2 (watches 2 and 4) afterwards
resolves to `r/b/a2` extended by its old path below node 2, and every
watch whose chain avoids node 2 (watches 1 and 3) keeps its previous
path. -/
theorem C2_witness :
    ∃ h' : RHead Int,
      RHead.rename rhead0 5 2 ["r", "b", "a2"] = (h', none) ∧
      h'.pref = rhead0.pref ∧ h'.table = rhead0.table ∧
      h'.tree = rhead0.tree ∧
      (∀ w iw pw fw, tableGet rhead0.table w = some iw →
        hPath rhead0.store fw iw = some pw →
        passes rhead0.store 2 fw iw = true →
        ∃ rel, pw = (rhead0.pref ++ ["a"]) ++ rel ∧
          ∃ F0, ∀ fl, F0 ≤ fl →
            RHead.path h' fl w = some (["r", "b", "a2"] ++ rel)) ∧
      (∀ w iw fl, tableGet rhead0.table w = some iw →
        passes rhead0.store 2 fl iw = false →
        RHead.path h' fl w = RHead.path rhead0 fl w) :=
  C2_rename_subtree rhead0 2 2 1 3 5 5
    { key := ["a"], value := 2, parent := some 1, children := [("d", 4)] }
    { key := ["b"], value := 3, parent := some 1, children := [] }
    rstore1 ["a"] ["b"] "a2" ["r", "b", "a2"]
    rfl rfl rfl rfl rfl rfl rfl rfl (by decide) rfl rfl

end PathTree

end Watchdir
